import Mathlib

/-!
# features.cpp: language models, smoothing and likelihood ratios

A shallow embedding of `src/features.cpp`.

* `std::unordered_map<K, V>` is a list of entries `(key, value)` in the
  container's iteration order, which the C++ standard leaves unspecified: every
  list order is a possible one.  A well-formed map (`UMap.WF`) has one entry per
  key.
* `unsigned int` is a natural number kept below `2 ^ 32` by an explicit
  reduction after each addition, `size_t` one kept below `2 ^ 64`.
* `double` is taken in two ways.  Where rounding does not bear on a claim, a finite
  value is an exact rational (`Dbl.add`, `Dbl.div`).  For the claims about exact
  sums, products and comparisons of computed values the same loops are given over
  IEEE 754 binary64 with rounding to nearest, ties to even (`F64.round`,
  `Dbl.add64`, `Dbl.div64`).  In both, the results of a division by zero are
  collected in one non-finite value (`Dbl.nonfin`).
-/

namespace Features

/-- The type `TermID` of `util/common.h`: an integer naming a vocabulary term. -/
abbrev TermID := Nat

/-- An `std::unordered_map<K, V>`: its entries in iteration order. -/
abbrev UMap (κ ν : Type) := List (κ × ν)

/-- An `std::unordered_set<K>`: its elements in iteration order. -/
abbrev USet (κ : Type) := List κ

namespace UMap

variable {κ ν : Type} [DecidableEq κ]

/-- The keys of a map, in iteration order. -/
def keys (m : UMap κ ν) : List κ := m.map Prod.fst

/-- A well-formed `unordered_map` holds at most one entry per key. -/
def WF (m : UMap κ ν) : Prop := (keys m).Nodup

/-- The lookup `m.find(k)`: the value stored under `k`, if there is one. -/
def find? : UMap κ ν → κ → Option ν
  | [], _ => none
  | (k', v) :: m, k => if k' = k then some v else find? m k

/-- The value stored under `k`, or `d` when `k` is not a key (`m.count(k)` style reading
that leaves the map alone). -/
def getD (m : UMap κ ν) (k : κ) (d : ν) : ν := (find? m k).getD d

/-- The assignment `m[k] = v`: the entry of `k` is overwritten in place, or a new entry is
added when `k` is not a key. -/
def set : UMap κ ν → κ → ν → UMap κ ν
  | [], k, v => [(k, v)]
  | (k', v') :: m, k, v => if k' = k then (k', v) :: m else (k', v') :: set m k v

/-- The map after an evaluation of `m[k]`: `operator[]` adds the entry `(k, d)`, `d` the
value-initialised `V`, when `k` is not a key, and leaves the map alone otherwise. -/
def index (m : UMap κ ν) (k : κ) (d : ν) : UMap κ ν :=
  match find? m k with
  | some _ => m
  | none => set m k d

instance (m : UMap κ ν) : Decidable (WF m) := by
  unfold WF
  infer_instance

end UMap

namespace USet

variable {κ : Type} [DecidableEq κ]

/-- The call `s.insert(k)`: nothing happens when `k` is already an element. -/
def insert (s : USet κ) (k : κ) : USet κ := if k ∈ s then s else s ++ [k]

end USet

/-- Range of `unsigned int`. -/
def UINT_RANGE : Nat := 2 ^ 32

/-- Range of `size_t`. -/
def SIZE_RANGE : Nat := 2 ^ 64

/-- A well-formed value of type `unordered_map<TermID, unsigned int>`: one entry per key,
every count in the range of `unsigned int`. -/
def ValidCounts (d : UMap TermID Nat) : Prop := d.WF ∧ ∀ e ∈ d, e.2 < UINT_RANGE

instance (d : UMap TermID Nat) : Decidable (ValidCounts d) := by
  unfold ValidCounts
  infer_instance

/-- The body of the loop of `combine_counts`: `language_model[count.first] += count.second`
on `unsigned int` values. -/
def add_count (language_model : UMap TermID Nat) (count : TermID × Nat) : UMap TermID Nat :=
  let lm := language_model.index count.1 0
  lm.set count.1 ((lm.getD count.1 0 + count.2) % UINT_RANGE)

/-- The function `combine_counts(language_model, doc_counts)`; the result is the language
model after the call. -/
def combine_counts (language_model doc_counts : UMap TermID Nat) : UMap TermID Nat :=
  doc_counts.foldl add_count language_model

/-- A value of type `double`: a finite number, or a non-finite one (NaN or an infinity). -/
inductive Dbl where
  | fin (q : ℚ)
  | nonfin
  deriving DecidableEq

namespace Dbl

/-- Conversion of an unsigned integer to `double`. -/
def ofNat (n : Nat) : Dbl := fin (n : ℚ)

/-- Addition of doubles. -/
def add : Dbl → Dbl → Dbl
  | fin a, fin b => fin (a + b)
  | _, _ => nonfin

/-- Division of doubles; a zero divisor gives a non-finite result. -/
def div : Dbl → Dbl → Dbl
  | fin a, fin b => if b = 0 then nonfin else fin (a / b)
  | _, _ => nonfin

end Dbl

/-- The loop `for (termMap : model.second) total += termMap.second` on a `size_t`. -/
def total_count (model : UMap TermID Nat) : Nat :=
  model.foldl (fun total termMap => (total + termMap.2) % SIZE_RANGE) 0

/-- One pass of the inner smoothing loop:
`smoothed_models[label][termMap.first] = static_cast<double>(termMap.second) / total`. -/
def smooth_step (label : String) (total : Nat)
    (smoothed_models : UMap String (UMap TermID Dbl)) (termMap : TermID × Nat) :
    UMap String (UMap TermID Dbl) :=
  let sms := smoothed_models.index label []
  sms.set label ((sms.getD label []).set termMap.1 (Dbl.div (Dbl.ofNat termMap.2) (Dbl.ofNat total)))

/-- The body of the smoothing loop of `main` for one entry `(label, model)` of
`language_models`. -/
def smooth_class (smoothed_models : UMap String (UMap TermID Dbl)) (label : String)
    (model : UMap TermID Nat) : UMap String (UMap TermID Dbl) :=
  model.foldl (smooth_step label (total_count model)) smoothed_models

/-- The smoothing loop of `main` over all of `language_models`. -/
def smooth_all (language_models : UMap String (UMap TermID Nat)) :
    UMap String (UMap TermID Dbl) :=
  language_models.foldl (fun sms model => smooth_class sms model.1 model.2) []

/-- The constant `.0001` of the ratio. -/
def EPSILON : Dbl := Dbl.fin (1 / 10000)

/-- One output line `<ratio> <label>`, with the term it was written for. -/
structure FeatureScore where
  term : TermID
  ratio : Dbl
  label : String
  deriving DecidableEq

/-- The state of the ratio loop: both models (which `operator[]` may extend) and the lines
written to `cout` so far. -/
structure RankState where
  m1 : UMap TermID Dbl
  m2 : UMap TermID Dbl
  out : List FeatureScore

/-- The set `termIDs` of `main`: the keys of `m1`, then those of `m2`, inserted into an
empty `unordered_set`. -/
def term_union (m1 m2 : UMap TermID Dbl) : USet TermID :=
  m2.foldl (fun s term => USet.insert s term.1)
    (m1.foldl (fun s term => USet.insert s term.1) [])

/-- One pass of the output loop:
`cout << (m1.second[termID] + .0001) / (m2.second[termID] + .0001) << " " << getLabel(termID)`. -/
def ratio_step (getLabel : TermID → String) (st : RankState) (termID : TermID) : RankState :=
  let m1 := st.m1.index termID (Dbl.fin 0)
  let m2 := st.m2.index termID (Dbl.fin 0)
  let ratio := Dbl.div (Dbl.add (m1.getD termID (Dbl.fin 0)) EPSILON)
    (Dbl.add (m2.getD termID (Dbl.fin 0)) EPSILON)
  RankState.mk m1 m2 (st.out ++ [FeatureScore.mk termID ratio (getLabel termID)])

/-- The comparison of the pair `(m1, m2)` in `main`: the set of terms is built, then one line
is written per term. -/
def compare_pair (getLabel : TermID → String) (m1 m2 : UMap TermID Dbl) : RankState :=
  (term_union m1 m2).foldl (ratio_step getLabel) (RankState.mk m1 m2 [])

/-- The ratio of the specification: `(P_numerator(t) + ε) / (P_denominator(t) + ε)`, a term
missing from a model having probability 0 there. -/
def ratio_spec (numerator denominator : UMap TermID Dbl) (t : TermID) : Dbl :=
  Dbl.div (Dbl.add (numerator.getD t (Dbl.fin 0)) EPSILON)
    (Dbl.add (denominator.getD t (Dbl.fin 0)) EPSILON)

/-- The sum of the counts of a map, as a natural number. -/
def value_sum (m : UMap TermID Nat) : Nat := (m.map Prod.snd).sum

/-- The count `d.count(t)` of a term in a document: 0 for a term that is not a key. -/
def doc_count (d : UMap TermID Nat) (t : TermID) : Nat := d.getD t 0

/-- The sum of the probabilities of a smoothed model, added up as doubles. -/
def prob_sum (m : UMap TermID Dbl) : Dbl :=
  m.foldl (fun acc term => Dbl.add acc term.2) (Dbl.fin 0)

/-- The entries that the inner smoothing loop writes for a model: each term with its count
divided by `total`, in the order of the model. -/
def smoothed_entries (total : Nat) (model : UMap TermID Nat) : UMap TermID Dbl :=
  model.map (fun termMap => (termMap.1, Dbl.div (Dbl.ofNat termMap.2) (Dbl.ofNat total)))

/-- The document counts of class "A" in the scenario of the specification: `{1:3, 2:1}`. -/
def scenarioA : UMap TermID Nat := [(1, 3), (2, 1)]

/-- The document counts of class "B" in the scenario of the specification: `{1:1, 3:2}`. -/
def scenarioB : UMap TermID Nat := [(1, 1), (3, 2)]

/-- The smoothed model of class "A" in the scenario: `{1:0.75, 2:0.25}`. -/
def smoothedA : UMap TermID Dbl := [(1, Dbl.fin (3 / 4)), (2, Dbl.fin (1 / 4))]

/-- The smoothed model of class "B" in the scenario: `{1:1/3, 3:2/3}`. -/
def smoothedB : UMap TermID Dbl := [(1, Dbl.fin (1 / 3)), (3, Dbl.fin (2 / 3))]

/-- The call `s.find_first_of(chars)`: the position of the first character of `s` that is one
of `chars`; `none` stands for `string::npos`, the answer when there is no such character. -/
def find_first_of (s : List Char) (chars : List Char) : Option Nat :=
  match s with
  | [] => none
  | c :: rest => if c ∈ chars then some 0 else (find_first_of rest chars).map (· + 1)

/-- The call `s.substr(pos, n)` for a position inside the string: at most `n` characters from
`pos` on, all the characters from `pos` on when `n` is `string::npos` (`none`). -/
def substr (s : List Char) (pos : Nat) (n : Option Nat) : List Char :=
  match n with
  | some n => (s.drop pos).take n
  | none => s.drop pos

/-- The function `getClass(path)`. -/
def getClass (path : String) : String :=
  let idx := find_first_of path.data ['/']
  String.mk (substr path.data 0 idx)

/-- A line written to `cout`: the header `#### p(f|class1)/p(f|class2)` or a feature line
`<ratio> <label>`. -/
inductive CoutLine where
  | header (class1 class2 : String)
  | feature (score : FeatureScore)
  deriving DecidableEq

/-- The inner loop `for (m2 : smoothed_models)` of the comparison, for one `m1`: at the first
`m2` with `class1 == "chinese" && class2 == "english"` the header and the feature lines are
written and `main` returns (`some` of what was written); `none` when the loop ends. -/
def compare_inner (getLabel : TermID → String) (m1 : String × UMap TermID Dbl) :
    UMap String (UMap TermID Dbl) → Option (List CoutLine)
  | [] => none
  | m2 :: rest =>
    if m1.1 = "chinese" ∧ m2.1 = "english" then
      some (CoutLine.header m1.1 m2.1
        :: (compare_pair getLabel m1.2 m2.2).out.map CoutLine.feature)
    else compare_inner getLabel m1 rest

/-- The outer loop `for (m1 : smoothed_models)` of the comparison, over the entries that are
still to be visited. -/
def compare_outer (getLabel : TermID → String) (smoothed_models : UMap String (UMap TermID Dbl)) :
    UMap String (UMap TermID Dbl) → Option (List CoutLine)
  | [] => none
  | m1 :: rest =>
    match compare_inner getLabel m1 smoothed_models with
    | some lines => some lines
    | none => compare_outer getLabel smoothed_models rest

/-- What `main` leaves behind: its exit status, the lines written to `cout`, the number of
calls of `tokenize`, and the language models and smoothed models it built. -/
structure Outcome where
  status : Nat
  cout : List CoutLine
  tokenized : Nat
  language_models : UMap String (UMap TermID Nat)
  smoothed_models : UMap String (UMap TermID Dbl)

/-- The comparison step of `main` with its two ways out: `return 0` inside the loops after the
lines of the pair were written, and `return 0` after the loops with nothing written. -/
def comparison (getLabel : TermID → String) (smoothed_models : UMap String (UMap TermID Dbl)) :
    Nat × List CoutLine :=
  match compare_outer getLabel smoothed_models smoothed_models with
  | some lines => (0, lines)
  | none => (0, [])

/-- The tokenizer behind the pointer `tokenizer`: `tokenize` gives the frequencies that
`doc.getFrequencies()` returns after `tokenizer->tokenize(doc, nullptr)`. -/
structure Tokenizer (δ : Type) where
  tokenize : δ → UMap TermID Nat
  getLabel : TermID → String

/-- One pass of the inner tokenizing loop:
`combine_counts(language_models[str.first], doc.getFrequencies())`. -/
def tokenize_step {δ : Type} (tokenizer : Tokenizer δ) (label : String)
    (language_models : UMap String (UMap TermID Nat)) (doc : δ) :
    UMap String (UMap TermID Nat) :=
  let lms := language_models.index label []
  lms.set label (combine_counts (lms.getD label []) (tokenizer.tokenize doc))

/-- The tokenizing loop of `main` over all classes and their documents. -/
def build_models {δ : Type} (tokenizer : Tokenizer δ) (docs : UMap String (List δ)) :
    UMap String (UMap TermID Nat) :=
  docs.foldl (fun lms str => str.2.foldl (tokenize_step tokenizer str.1) lms) []

/-- The part of `main` after the tokenizer was chosen: tokenizing, smoothing, comparing. -/
def pipeline {δ : Type} (tokenizer : Tokenizer δ) (docs : UMap String (List δ)) : Outcome :=
  let language_models := build_models tokenizer docs
  let smoothed_models := smooth_all language_models
  let result := comparison tokenizer.getLabel smoothed_models
  Outcome.mk result.1 result.2 (docs.map (fun str => str.2.length)).sum language_models
    smoothed_models

/-! ### Binary64 arithmetic

The definitions above take `double` as exact.  Where a claim is about the exact value of a
sum, a product or a comparison of computed doubles, rounding decides it; the definitions
below are the same loops of `main` over IEEE 754 binary64 with rounding to nearest, ties to
even. -/

namespace F64

/-- The integer nearest to a rational, the even one of the two when it is half-way. -/
def roundEven (y : ℚ) : ℤ :=
  if y - ⌊y⌋ < 1 / 2 then ⌊y⌋
  else if 1 / 2 < y - ⌊y⌋ then ⌊y⌋ + 1
  else if ⌊y⌋ % 2 = 0 then ⌊y⌋ else ⌊y⌋ + 1

/-- The exponent of the binade of `x`: the integer part of its binary logarithm, and -1022
for the subnormal numbers and 0. -/
def expo (x : ℚ) : ℤ := max (Int.log 2 |x|) (-1022)

/-- The distance of two neighbouring doubles in the binade of `x`: a double has 53
significant bits. -/
def ulp (x : ℚ) : ℚ := (2 : ℚ) ^ (expo x - 52)

/-- The multiple of `ulp x` nearest to `x`, a tie going to the even multiple. -/
def nearest (x : ℚ) : ℚ := roundEven (x / ulp x) * ulp x

/-- The double that a real result `x` is rounded to; a result that rounds to `2 ^ 1024` or
beyond is an infinity. -/
def round (x : ℚ) : Dbl := if 2 ^ 1024 ≤ |nearest x| then Dbl.nonfin else Dbl.fin (nearest x)

end F64

namespace Dbl

/-- Conversion of an unsigned integer to `double`, in binary64. -/
def ofNat64 (n : Nat) : Dbl := F64.round (n : ℚ)

/-- Addition of doubles, in binary64. -/
def add64 : Dbl → Dbl → Dbl
  | fin a, fin b => F64.round (a + b)
  | _, _ => nonfin

/-- Division of doubles, in binary64; a zero divisor gives a non-finite result. -/
def div64 : Dbl → Dbl → Dbl
  | fin a, fin b => if b = 0 then nonfin else F64.round (a / b)
  | _, _ => nonfin

end Dbl

/-- The constant `.0001` of the ratio, in binary64: the double nearest to 1/10000. -/
def EPSILON64 : Dbl := F64.round (1 / 10000)

/-- The value of the double nearest to 1/10000. -/
def eps64 : ℚ := 7378697629483821 / 2 ^ 66

/-- One pass of the inner smoothing loop, in binary64:
`smoothed_models[label][termMap.first] = static_cast<double>(termMap.second) / total`. -/
def smooth_step64 (label : String) (total : Nat)
    (smoothed_models : UMap String (UMap TermID Dbl)) (termMap : TermID × Nat) :
    UMap String (UMap TermID Dbl) :=
  let sms := smoothed_models.index label []
  sms.set label
    ((sms.getD label []).set termMap.1 (Dbl.div64 (Dbl.ofNat64 termMap.2) (Dbl.ofNat64 total)))

/-- The body of the smoothing loop of `main` for one entry `(label, model)` of
`language_models`, in binary64. -/
def smooth_class64 (smoothed_models : UMap String (UMap TermID Dbl)) (label : String)
    (model : UMap TermID Nat) : UMap String (UMap TermID Dbl) :=
  model.foldl (smooth_step64 label (total_count model)) smoothed_models

/-- The entries that the inner smoothing loop writes for a model in binary64, in the order
of the model. -/
def smoothed_entries64 (total : Nat) (model : UMap TermID Nat) : UMap TermID Dbl :=
  model.map (fun termMap =>
    (termMap.1, Dbl.div64 (Dbl.ofNat64 termMap.2) (Dbl.ofNat64 total)))

/-- The ratio `(p + .0001) / (q + .0001)` of line 149 on the two values read, in binary64. -/
def ratio64 (p q : Dbl) : Dbl := Dbl.div64 (Dbl.add64 p EPSILON64) (Dbl.add64 q EPSILON64)

/-- One pass of the output loop, in binary64:
`cout << (m1.second[termID] + .0001) / (m2.second[termID] + .0001) << " " << getLabel(termID)`. -/
def ratio_step64 (getLabel : TermID → String) (st : RankState) (termID : TermID) : RankState :=
  let m1 := st.m1.index termID (Dbl.fin 0)
  let m2 := st.m2.index termID (Dbl.fin 0)
  let ratio := ratio64 (m1.getD termID (Dbl.fin 0)) (m2.getD termID (Dbl.fin 0))
  RankState.mk m1 m2 (st.out ++ [FeatureScore.mk termID ratio (getLabel termID)])

/-- The comparison of the pair `(m1, m2)` in `main`, in binary64. -/
def compare_pair64 (getLabel : TermID → String) (m1 m2 : UMap TermID Dbl) : RankState :=
  (term_union m1 m2).foldl (ratio_step64 getLabel) (RankState.mk m1 m2 [])

/-- The smoothed model in binary64 of a class whose only term 0 has count 1: `{0:1}`. -/
def soleTermSmoothed : UMap TermID Dbl := [(0, Dbl.fin 1)]

/-- The smoothed model in binary64 of a class with the terms 0 and 1, each of count 1:
`{0:0.5, 1:0.5}`. -/
def twoTermsSmoothed : UMap TermID Dbl := [(0, Dbl.fin (1 / 2)), (1, Dbl.fin (1 / 2))]

/-- The function `main`: `config` is what `ConfigReader::read` returns and `docs` what
`getDocs` returns; `newNgram` and `newTree` build the two tokenizers from the configuration.
Nothing is tokenized, built or written to `cout` on the two paths that return 1. -/
def main {δ : Type} (argc : Nat) (config : UMap String String) (docs : UMap String (List δ))
    (newNgram newTree : UMap String String → Tokenizer δ) : Outcome :=
  if argc ≠ 2 then Outcome.mk 1 [] 0 [] []
  else
    let method := config.getD "method" ""
    if method = "ngram" then pipeline (newNgram config) docs
    else if method = "tree" then pipeline (newTree config) docs
    else Outcome.mk 1 [] 0 [] []

end Features

namespace Features

/-! ## Maps -/

namespace UMap

variable {κ ν : Type} [DecidableEq κ]

theorem find?_eq_none_iff (m : UMap κ ν) (k : κ) : find? m k = none ↔ k ∉ keys m := by
  induction m with
  | nil => simp [find?, keys]
  | cons e m ih =>
    obtain ⟨k', v⟩ := e
    by_cases h : k' = k
    · simp [find?, keys, h]
    · have h' : ¬ k = k' := fun e => h e.symm
      simpa [find?, keys, h, h'] using ih

theorem find?_isSome_iff (m : UMap κ ν) (k : κ) : (∃ v, find? m k = some v) ↔ k ∈ keys m := by
  have h := find?_eq_none_iff m k
  cases hf : find? m k with
  | none => simpa [hf] using h
  | some v =>
    rw [hf] at h
    simp only [reduceCtorEq, false_iff, not_not] at h
    simp [h]

theorem find?_set_self (m : UMap κ ν) (k : κ) (v : ν) : find? (set m k v) k = some v := by
  induction m with
  | nil => simp [set, find?]
  | cons e m ih =>
    obtain ⟨k', v'⟩ := e
    by_cases h : k' = k
    · simp [set, find?, h]
    · simp [set, find?, h, ih]

theorem find?_set_ne (m : UMap κ ν) {k k' : κ} (v : ν) (h : k ≠ k') :
    find? (set m k v) k' = find? m k' := by
  induction m with
  | nil => simp [set, find?, h]
  | cons e m ih =>
    obtain ⟨k'', v''⟩ := e
    by_cases h1 : k'' = k
    · subst h1
      simp [set, find?, h]
    · simp [set, find?, h1, ih]

theorem find?_set (m : UMap κ ν) (k k' : κ) (v : ν) :
    find? (set m k v) k' = if k = k' then some v else find? m k' := by
  by_cases h : k = k'
  · subst h
    simp [find?_set_self]
  · simp [h, find?_set_ne m v h]

theorem mem_keys_set (m : UMap κ ν) (k k' : κ) (v : ν) :
    k' ∈ keys (set m k v) ↔ k' = k ∨ k' ∈ keys m := by
  rw [← find?_isSome_iff, ← find?_isSome_iff, find?_set]
  by_cases h : k = k'
  · simp [h]
  · have h' : ¬ k' = k := fun e => h e.symm
    simp [h, h']

theorem keys_set_of_mem (m : UMap κ ν) (k : κ) (v : ν) (h : k ∈ keys m) :
    keys (set m k v) = keys m := by
  induction m with
  | nil => simp [keys] at h
  | cons e m ih =>
    obtain ⟨k', v'⟩ := e
    by_cases h1 : k' = k
    · simp [set, keys, h1]
    · have h2 : k ∈ keys m := by
        have h' : ¬ k = k' := fun e => h1 e.symm
        simpa [keys, h'] using h
      have := ih h2
      simp only [keys] at this
      simp [set, keys, h1, this]

theorem keys_set_of_not_mem (m : UMap κ ν) (k : κ) (v : ν) (h : k ∉ keys m) :
    keys (set m k v) = keys m ++ [k] := by
  induction m with
  | nil => simp [set, keys]
  | cons e m ih =>
    obtain ⟨k', v'⟩ := e
    have h1 : ¬ k' = k := by
      intro e
      apply h
      simp [keys, e]
    have h2 : k ∉ keys m := by
      intro hk
      apply h
      simp only [keys] at hk
      simp [keys, hk]
    have := ih h2
    simp only [keys] at this
    simp [set, keys, h1, this]

theorem WF_set (m : UMap κ ν) (k : κ) (v : ν) (h : WF m) : WF (set m k v) := by
  unfold WF at *
  by_cases hk : k ∈ keys m
  · rw [keys_set_of_mem m k v hk]
    exact h
  · rw [keys_set_of_not_mem m k v hk]
    exact List.Nodup.append h (List.nodup_singleton k) (by simpa using hk)

theorem set_of_not_mem (m : UMap κ ν) (k : κ) (v : ν) (h : k ∉ keys m) :
    set m k v = m ++ [(k, v)] := by
  induction m with
  | nil => simp [set]
  | cons e m ih =>
    obtain ⟨k', v'⟩ := e
    have h1 : ¬ k' = k := by
      intro e
      apply h
      simp [keys, e]
    have h2 : k ∉ keys m := by
      intro hk
      apply h
      simp only [keys] at hk
      simp [keys, hk]
    simp [set, h1, ih h2]

theorem set_set (m : UMap κ ν) (k : κ) (v w : ν) : set (set m k v) k w = set m k w := by
  induction m with
  | nil => simp [set]
  | cons e m ih =>
    obtain ⟨k', v'⟩ := e
    by_cases h : k' = k
    · simp [set, h]
    · simp [set, h, ih]

theorem find?_map (m : UMap κ ν) {μ : Type} (f : ν → μ) (k : κ) :
    find? (m.map (fun e => (e.1, f e.2))) k = (find? m k).map f := by
  induction m with
  | nil => simp [find?]
  | cons e m ih =>
    obtain ⟨k', v'⟩ := e
    by_cases h : k' = k
    · simp [find?, h]
    · simp [find?, h, ih]

theorem set_index (m : UMap κ ν) (k : κ) (d v : ν) : set (index m k d) k v = set m k v := by
  unfold index
  cases hf : find? m k with
  | some w => rfl
  | none =>
    have hk : k ∉ keys m := (find?_eq_none_iff m k).1 hf
    clear hf
    induction m with
    | nil => simp [set]
    | cons e m ih =>
      obtain ⟨k', v'⟩ := e
      have h1 : ¬ k' = k := by
        intro e
        apply hk
        simp [keys, e]
      have h2 : k ∉ keys m := by
        intro hk'
        apply hk
        simp only [keys] at hk'
        simp [keys, hk']
      simp [set, h1, ih h2]

theorem getD_index (m : UMap κ ν) (k k' : κ) (d : ν) : getD (index m k d) k' d = getD m k' d := by
  unfold index
  cases hf : find? m k with
  | some w => rfl
  | none =>
    unfold getD
    rw [find?_set]
    by_cases h : k = k'
    · subst h
      simp [hf]
    · simp [h]

theorem find?_index (m : UMap κ ν) (k k' : κ) (d : ν) :
    find? (index m k d) k' = if k = k' then some (getD m k d) else find? m k' := by
  unfold index getD
  cases hf : find? m k with
  | some w =>
    by_cases h : k = k'
    · subst h
      simp [hf]
    · simp [h]
  | none =>
    rw [find?_set]
    by_cases h : k = k'
    · simp [h]
    · simp [h]

theorem mem_keys_index (m : UMap κ ν) (k k' : κ) (d : ν) :
    k' ∈ keys (index m k d) ↔ k' = k ∨ k' ∈ keys m := by
  unfold index
  cases hf : find? m k with
  | some w =>
    have hk : k ∈ keys m := (find?_isSome_iff m k).1 ⟨w, hf⟩
    constructor
    · exact fun h => Or.inr h
    · rintro (h | h)
      · simpa [h] using hk
      · exact h
  | none => exact mem_keys_set m k k' d

theorem WF_index (m : UMap κ ν) (k : κ) (d : ν) (h : WF m) : WF (index m k d) := by
  unfold index
  cases hf : find? m k with
  | some w => exact h
  | none => exact WF_set m k d h

end UMap

/-! ## The language model builder -/

theorem add_count_eq (lm : UMap TermID Nat) (c : TermID × Nat) :
    add_count lm c = lm.set c.1 ((lm.getD c.1 0 + c.2) % UINT_RANGE) := by
  unfold add_count
  simp only [UMap.set_index, UMap.getD_index]

theorem getD_add_count (lm : UMap TermID Nat) (c : TermID × Nat) (t : TermID) :
    (add_count lm c).getD t 0 = if c.1 = t then (lm.getD t 0 + c.2) % UINT_RANGE else lm.getD t 0 := by
  rw [add_count_eq]
  unfold UMap.getD
  rw [UMap.find?_set]
  by_cases h : c.1 = t
  · subst h
    simp
  · simp [h]

theorem mem_keys_add_count (lm : UMap TermID Nat) (c : TermID × Nat) (t : TermID) :
    t ∈ (add_count lm c).keys ↔ t ∈ lm.keys ∨ t = c.1 := by
  rw [add_count_eq, UMap.mem_keys_set]
  exact Or.comm

theorem mem_keys_combine_counts (lm d : UMap TermID Nat) (t : TermID) :
    t ∈ (combine_counts lm d).keys ↔ t ∈ lm.keys ∨ t ∈ d.keys := by
  unfold combine_counts
  induction d generalizing lm with
  | nil => simp [UMap.keys]
  | cons c d ih =>
    rw [List.foldl_cons, ih, mem_keys_add_count]
    simp only [UMap.keys, List.map_cons, List.mem_cons]
    tauto

theorem mem_keys_foldl_combine_counts (docs : List (UMap TermID Nat)) (lm : UMap TermID Nat)
    (t : TermID) :
    t ∈ (docs.foldl combine_counts lm).keys ↔ t ∈ lm.keys ∨ ∃ d ∈ docs, t ∈ d.keys := by
  induction docs generalizing lm with
  | nil => simp
  | cons d docs ih =>
    rw [List.foldl_cons, ih, mem_keys_combine_counts]
    simp only [List.mem_cons, exists_eq_or_imp]
    tauto

theorem WF_combine_counts (lm d : UMap TermID Nat) (h : lm.WF) : (combine_counts lm d).WF := by
  unfold combine_counts
  induction d generalizing lm with
  | nil => exact h
  | cons c d ih =>
    rw [List.foldl_cons]
    apply ih
    rw [add_count_eq]
    exact UMap.WF_set _ _ _ h

theorem WF_foldl_combine_counts (docs : List (UMap TermID Nat)) (lm : UMap TermID Nat)
    (h : lm.WF) : (docs.foldl combine_counts lm).WF := by
  induction docs generalizing lm with
  | nil => exact h
  | cons d docs ih => exact ih _ (WF_combine_counts lm d h)

theorem doc_count_cons (c : TermID × Nat) (d : UMap TermID Nat) (t : TermID) :
    doc_count (c :: d) t = if c.1 = t then c.2 else doc_count d t := by
  obtain ⟨k, v⟩ := c
  unfold doc_count UMap.getD
  by_cases h : k = t
  · simp [UMap.find?, h]
  · simp [UMap.find?, h]

theorem doc_count_eq_zero (d : UMap TermID Nat) (t : TermID) (h : t ∉ d.keys) :
    doc_count d t = 0 := by
  unfold doc_count UMap.getD
  rw [(UMap.find?_eq_none_iff d t).2 h]
  rfl

/-- One merge adds, for each term, the count of the document to the stored count, modulo
the range of `unsigned int`. -/
theorem getD_combine_counts_mod (lm d : UMap TermID Nat) (hd : d.WF) (t : TermID) :
    (combine_counts lm d).getD t 0 % UINT_RANGE = (lm.getD t 0 + doc_count d t) % UINT_RANGE := by
  unfold combine_counts
  induction d generalizing lm with
  | nil => simp [doc_count, UMap.getD, UMap.find?]
  | cons c d ih =>
    have hd' : UMap.WF d := by
      unfold UMap.WF UMap.keys at *
      exact (List.nodup_cons.1 hd).2
    have hc : c.1 ∉ UMap.keys d := by
      unfold UMap.WF UMap.keys at *
      exact (List.nodup_cons.1 hd).1
    rw [List.foldl_cons, ih _ hd', getD_add_count, doc_count_cons]
    by_cases h : c.1 = t
    · subst h
      simp [doc_count_eq_zero d c.1 hc]
    · simp [h]

theorem getD_foldl_combine_counts_mod (docs : List (UMap TermID Nat)) (lm : UMap TermID Nat)
    (hwf : ∀ d ∈ docs, d.WF) (t : TermID) :
    (docs.foldl combine_counts lm).getD t 0 % UINT_RANGE
      = (lm.getD t 0 + (docs.map (fun d => doc_count d t)).sum) % UINT_RANGE := by
  induction docs generalizing lm with
  | nil => simp
  | cons d docs ih =>
    have h1 : ∀ d' ∈ docs, UMap.WF d' := fun d' hd' => hwf d' (List.mem_cons_of_mem _ hd')
    have h2 : UMap.WF d := hwf d (List.mem_cons_self _ _)
    rw [List.foldl_cons, ih _ h1, List.map_cons, List.sum_cons, ← Nat.add_assoc,
      Nat.add_mod, getD_combine_counts_mod lm d h2, ← Nat.add_mod]

/-- Every count stored by `combine_counts` is in the range of `unsigned int`. -/
theorem getD_combine_counts_lt (lm d : UMap TermID Nat) (h : ∀ t, lm.getD t 0 < UINT_RANGE)
    (t : TermID) : (combine_counts lm d).getD t 0 < UINT_RANGE := by
  unfold combine_counts
  induction d generalizing lm t with
  | nil => exact h t
  | cons c d ih =>
    rw [List.foldl_cons]
    apply ih
    intro t'
    rw [getD_add_count]
    by_cases hc : c.1 = t'
    · simp only [hc, if_true]
      exact Nat.mod_lt _ (by unfold UINT_RANGE; norm_num)
    · simp only [hc, if_false]
      exact h t'

theorem getD_foldl_combine_counts_lt (docs : List (UMap TermID Nat)) (lm : UMap TermID Nat)
    (h : ∀ t, lm.getD t 0 < UINT_RANGE) (t : TermID) :
    (docs.foldl combine_counts lm).getD t 0 < UINT_RANGE := by
  induction docs generalizing lm t with
  | nil => exact h t
  | cons d docs ih => exact ih _ (fun t' => getD_combine_counts_lt lm d h t') t

/-- The stored count of a term is the sum of its counts in the documents, modulo the range
of `unsigned int`. -/
theorem stored_count_eq_mod (docs : List (UMap TermID Nat)) (hwf : ∀ d ∈ docs, d.WF)
    (t : TermID) :
    (docs.foldl combine_counts []).getD t 0
      = (docs.map (fun d => doc_count d t)).sum % UINT_RANGE := by
  have h1 := getD_foldl_combine_counts_mod docs [] hwf t
  have h2 := getD_foldl_combine_counts_lt docs [] (fun t' => by
    simp [UMap.getD, UMap.find?, UINT_RANGE]) t
  rw [Nat.mod_eq_of_lt h2] at h1
  rw [h1]
  simp [UMap.getD, UMap.find?]

theorem stored_count_eq (docs : List (UMap TermID Nat)) (hwf : ∀ d ∈ docs, d.WF)
    (t : TermID) (hfit : (docs.map (fun d => doc_count d t)).sum < UINT_RANGE) :
    (docs.foldl combine_counts []).getD t 0 = (docs.map (fun d => doc_count d t)).sum := by
  rw [stored_count_eq_mod docs hwf t, Nat.mod_eq_of_lt hfit]

theorem mem_of_find?_eq_some {κ ν : Type} [DecidableEq κ] (m : UMap κ ν) (k : κ) (v : ν)
    (h : m.find? k = some v) : (k, v) ∈ m := by
  induction m with
  | nil => simp [UMap.find?] at h
  | cons e m ih =>
    obtain ⟨k', v'⟩ := e
    by_cases hk : k' = k
    · simp only [UMap.find?, hk, if_true, Option.some.injEq] at h
      simp [hk, h]
    · simp only [UMap.find?, hk, if_false] at h
      exact List.mem_cons_of_mem _ (ih h)

/-- C1 (as stated, refuted): two documents that each count term 0 `2 ^ 31` times are merged
into a language model whose stored count for term 0 is 0, not the sum `2 ^ 32`. -/
theorem C1_stored_count_overflows :
    ¬ ∀ docs : List (UMap TermID Nat), (∀ d ∈ docs, ValidCounts d) → ∀ t : TermID,
      (docs.foldl combine_counts []).getD t 0 = (docs.map (fun d => doc_count d t)).sum := by
  intro h
  have h0 := h [[(0, 2147483648)], [(0, 2147483648)]] (by decide) 0
  revert h0
  decide

/-- C1 (amended): folding `combine_counts` over the documents of a class, from the empty
language model, stores for every term whose counts add up to less than `2 ^ 32` exactly the
sum of its counts in the documents, a document without the term contributing 0. -/
theorem C1_stored_count_is_sum (docs : List (UMap TermID Nat)) (hwf : ∀ d ∈ docs, d.WF)
    (t : TermID) (hfit : (docs.map (fun d => doc_count d t)).sum < UINT_RANGE) :
    (docs.foldl combine_counts []).getD t 0 = (docs.map (fun d => doc_count d t)).sum :=
  stored_count_eq docs hwf t hfit

/-- C1, at the two documents `{1:3, 2:1}` and `{1:1, 3:2}` and the term 1. -/
theorem C1_stored_count_is_sum_witness :
    (∀ d ∈ [scenarioA, scenarioB], d.WF)
      ∧ ([scenarioA, scenarioB].map (fun d => doc_count d 1)).sum < UINT_RANGE
      ∧ ([scenarioA, scenarioB].foldl combine_counts []).getD 1 0
        = ([scenarioA, scenarioB].map (fun d => doc_count d 1)).sum :=
  ⟨by decide, by decide, C1_stored_count_is_sum [scenarioA, scenarioB] (by decide) 1 (by decide)⟩

/-! ### Keys and positivity -/

/-- C9: `combine_counts` leaves a language model whose keys are the keys it had and the keys
of the merged document, and the language model built from all documents of a class, starting
from the empty one, has as keys exactly the terms that are a key of one of the documents. -/
theorem C9_keys_are_union :
    (∀ (lm d : UMap TermID Nat) (t : TermID),
        t ∈ (combine_counts lm d).keys ↔ t ∈ lm.keys ∨ t ∈ d.keys)
      ∧ ∀ (docs : List (UMap TermID Nat)) (t : TermID),
        t ∈ (docs.foldl combine_counts []).keys ↔ ∃ d ∈ docs, t ∈ d.keys := by
  refine ⟨mem_keys_combine_counts, fun docs t => ?_⟩
  rw [mem_keys_foldl_combine_counts]
  simp [UMap.keys]

/-- C8 (as stated, refuted): a document that holds term 5 with count 0 leaves the key 5 in
the language model with the value 0; so do two documents that each count term 0 `2 ^ 31`
times. -/
theorem C8_zero_count_is_stored :
    (¬ ∀ docs : List (UMap TermID Nat), (∀ d ∈ docs, ValidCounts d) → ∀ (t : TermID) (v : Nat),
      (docs.foldl combine_counts []).find? t = some v → 0 < v)
      ∧ ([[(5, 0)]] : List (UMap TermID Nat)).foldl combine_counts [] = [(5, 0)]
      ∧ ([[(0, 2147483648)], [(0, 2147483648)]] : List (UMap TermID Nat)).foldl combine_counts []
        = [(0, 0)] := by
  refine ⟨fun h => ?_, by decide, by decide⟩
  have h0 := h [[(5, 0)]] (by decide) 5 0 (by decide)
  exact absurd h0 (by decide)

/-- C8 (amended): when every count of every document is strictly positive and the counts of
each term add up to less than `2 ^ 32`, every value stored in the language model is strictly
positive. -/
theorem C8_stored_counts_positive (docs : List (UMap TermID Nat)) (hwf : ∀ d ∈ docs, d.WF)
    (hpos : ∀ d ∈ docs, ∀ e ∈ d, 0 < e.2)
    (hfit : ∀ t : TermID, (docs.map (fun d => doc_count d t)).sum < UINT_RANGE)
    (t : TermID) (v : Nat) (hv : (docs.foldl combine_counts []).find? t = some v) : 0 < v := by
  have hkey : t ∈ (docs.foldl combine_counts []).keys :=
    (UMap.find?_isSome_iff _ t).1 ⟨v, hv⟩
  rw [mem_keys_foldl_combine_counts] at hkey
  rcases hkey with hkey | ⟨d, hd, hkey⟩
  · simp [UMap.keys] at hkey
  · obtain ⟨c, hc⟩ := (UMap.find?_isSome_iff d t).2 hkey
    have hcpos : 0 < c := hpos d hd (t, c) (mem_of_find?_eq_some d t c hc)
    have hdc : doc_count d t = c := by
      unfold doc_count UMap.getD
      rw [hc]
      rfl
    have hle : doc_count d t ≤ (docs.map (fun d => doc_count d t)).sum :=
      List.single_le_sum (fun _ _ => Nat.zero_le _) _ (List.mem_map.2 ⟨d, hd, rfl⟩)
    have hst := stored_count_eq docs hwf t (hfit t)
    unfold UMap.getD at hst
    rw [hv] at hst
    simp only [Option.getD_some] at hst
    omega

theorem scenario_fit (t : TermID) :
    ([scenarioA, scenarioB].map (fun d => doc_count d t)).sum < UINT_RANGE := by
  have h0 : doc_count [] t = 0 := doc_count_eq_zero [] t (by simp [UMap.keys])
  have hA : doc_count scenarioA t ≤ 3 := by
    simp only [scenarioA, doc_count_cons, h0]
    split_ifs <;> omega
  have hB : doc_count scenarioB t ≤ 3 := by
    simp only [scenarioB, doc_count_cons, h0]
    split_ifs <;> omega
  simp only [List.map_cons, List.map_nil, List.sum_cons, List.sum_nil, UINT_RANGE]
  omega

/-- C8, at the two documents `{1:3, 2:1}` and `{1:1, 3:2}` and the stored count 4 of term 1. -/
theorem C8_stored_counts_positive_witness :
    ([scenarioA, scenarioB].foldl combine_counts []).find? 1 = some 4 ∧ 0 < 4 :=
  ⟨by decide, C8_stored_counts_positive [scenarioA, scenarioB] (by decide) (by decide)
    scenario_fit 1 4 (by decide)⟩

/-! ### Sums of counts -/

theorem getD_cons (c : TermID × Nat) (m : UMap TermID Nat) (t : TermID) :
    UMap.getD (c :: m) t 0 = if c.1 = t then c.2 else UMap.getD m t 0 :=
  doc_count_cons c m t

/-- The sum of the counts of a well-formed map is the sum of its lookups over any finite set
of terms that holds its keys. -/
theorem value_sum_eq_sum_getD (m : UMap TermID Nat) (hm : m.WF) (S : Finset TermID)
    (hS : ∀ k ∈ m.keys, k ∈ S) : value_sum m = ∑ t ∈ S, m.getD t 0 := by
  induction m with
  | nil => simp [value_sum, UMap.getD, UMap.find?]
  | cons c m ih =>
    have hm' : UMap.WF m := by
      unfold UMap.WF UMap.keys at *
      exact (List.nodup_cons.1 hm).2
    have hc : c.1 ∉ UMap.keys m := by
      unfold UMap.WF UMap.keys at *
      exact (List.nodup_cons.1 hm).1
    have hcS : c.1 ∈ S := hS c.1 (by simp [UMap.keys])
    have hS' : ∀ k ∈ UMap.keys m, k ∈ S := fun k hk => hS k (by
      simp only [UMap.keys, List.map_cons, List.mem_cons] at hk ⊢
      exact Or.inr hk)
    have hsplit : ∀ t ∈ S, UMap.getD (c :: m) t 0
        = (if c.1 = t then c.2 else 0) + UMap.getD m t 0 := by
      intro t _
      rw [getD_cons]
      by_cases h : c.1 = t
      · subst h
        have h0 : UMap.getD m c.1 0 = 0 := doc_count_eq_zero m c.1 hc
        simp [h0]
      · simp [h]
    have hvs : value_sum (c :: m) = c.2 + value_sum m := by
      simp [value_sum]
    rw [hvs, ih hm' hS', Finset.sum_congr rfl hsplit, Finset.sum_add_distrib,
      Finset.sum_ite_eq S c.1 (fun _ => c.2)]
    simp [hcS]

theorem sum_map_sum_comm (docs : List (UMap TermID Nat)) (S : Finset TermID) :
    ∑ t ∈ S, (docs.map (fun d => doc_count d t)).sum
      = (docs.map (fun d => ∑ t ∈ S, doc_count d t)).sum := by
  induction docs with
  | nil => simp
  | cons d docs ih => simp [Finset.sum_add_distrib, ih]

/-- With no count wrapping around, the counts of the language model add up to the counts of
all the documents. -/
theorem value_sum_foldl_combine_counts (docs : List (UMap TermID Nat)) (hwf : ∀ d ∈ docs, d.WF)
    (hfit : ∀ t : TermID, (docs.map (fun d => doc_count d t)).sum < UINT_RANGE) :
    value_sum (docs.foldl combine_counts []) = (docs.map value_sum).sum := by
  have hlm : (docs.foldl combine_counts []).WF :=
    WF_foldl_combine_counts docs [] (by simp [UMap.WF, UMap.keys])
  rw [value_sum_eq_sum_getD _ hlm (docs.foldl combine_counts []).keys.toFinset
    (fun k hk => List.mem_toFinset.2 hk)]
  rw [Finset.sum_congr rfl (fun t _ => stored_count_eq docs hwf t (hfit t)), sum_map_sum_comm]
  apply congrArg
  apply List.map_congr_left
  intro d hd
  symm
  apply value_sum_eq_sum_getD d (hwf d hd)
  intro k hk
  rw [List.mem_toFinset, mem_keys_foldl_combine_counts]
  exact Or.inr ⟨d, hd, hk⟩

theorem foldl_total (m : UMap TermID Nat) (a : Nat) (ha : a < SIZE_RANGE) :
    m.foldl (fun total termMap => (total + termMap.2) % SIZE_RANGE) a
      = (a + value_sum m) % SIZE_RANGE := by
  induction m generalizing a with
  | nil => simp [value_sum, Nat.mod_eq_of_lt ha]
  | cons c m ih =>
    have hpos : 0 < SIZE_RANGE := by unfold SIZE_RANGE; norm_num
    rw [List.foldl_cons, ih _ (Nat.mod_lt _ hpos)]
    have hvs : value_sum (c :: m) = c.2 + value_sum m := by
      simp [value_sum]
    rw [hvs, Nat.mod_add_mod, Nat.add_assoc]

/-- The `size_t` total of `main` is the sum of the counts modulo `2 ^ 64`. -/
theorem total_count_eq_mod (m : UMap TermID Nat) : total_count m = value_sum m % SIZE_RANGE := by
  unfold total_count
  rw [foldl_total m 0 (by unfold SIZE_RANGE; norm_num), Nat.zero_add]

theorem total_count_eq (m : UMap TermID Nat) (h : value_sum m < SIZE_RANGE) :
    total_count m = value_sum m := by
  rw [total_count_eq_mod, Nat.mod_eq_of_lt h]

/-- C2 (as stated, refuted): two documents that each count term 0 `2 ^ 31` times hold
`2 ^ 32` counts together, and the values of the language model built from them add up
to 0. -/
theorem C2_total_lost_on_overflow :
    ¬ ∀ docs : List (UMap TermID Nat), (∀ d ∈ docs, ValidCounts d) →
      value_sum (docs.foldl combine_counts []) = (docs.map value_sum).sum := by
  intro h
  have h0 := h [[(0, 2147483648)], [(0, 2147483648)]] (by decide)
  revert h0
  decide

/-- C2 (amended): when the counts of each term add up to less than `2 ^ 32`, the values of the
language model of a class add up to the sum, over its documents, of the sum of the counts of
the document; the total that `main` computes from the language model is that number when it
is below `2 ^ 64`. -/
theorem C2_model_total_is_documents_total (docs : List (UMap TermID Nat))
    (hwf : ∀ d ∈ docs, d.WF)
    (hfit : ∀ t : TermID, (docs.map (fun d => doc_count d t)).sum < UINT_RANGE) :
    value_sum (docs.foldl combine_counts []) = (docs.map value_sum).sum
      ∧ ((docs.map value_sum).sum < SIZE_RANGE →
          total_count (docs.foldl combine_counts []) = (docs.map value_sum).sum) := by
  have h := value_sum_foldl_combine_counts docs hwf hfit
  refine ⟨h, fun hlt => ?_⟩
  rw [total_count_eq _ (by rw [h]; exact hlt), h]

/-- C2, at the two documents `{1:3, 2:1}` and `{1:1, 3:2}`: the language model holds 7
counts. -/
theorem C2_model_total_is_documents_total_witness :
    ([scenarioA, scenarioB].map value_sum).sum = 7
      ∧ value_sum ([scenarioA, scenarioB].foldl combine_counts [])
        = ([scenarioA, scenarioB].map value_sum).sum
      ∧ (([scenarioA, scenarioB].map value_sum).sum < SIZE_RANGE →
          total_count ([scenarioA, scenarioB].foldl combine_counts [])
            = ([scenarioA, scenarioB].map value_sum).sum) :=
  ⟨by decide,
    C2_model_total_is_documents_total [scenarioA, scenarioB] (by decide) scenario_fit⟩

/-! ## The smoother -/

theorem smooth_step_eq (label : String) (total : Nat) (sms : UMap String (UMap TermID Dbl))
    (c : TermID × Nat) :
    smooth_step label total sms c
      = sms.set label ((sms.getD label []).set c.1 (Dbl.div (Dbl.ofNat c.2) (Dbl.ofNat total))) := by
  unfold smooth_step
  simp only [UMap.set_index, UMap.getD_index]

/-- The inner smoothing loop, run over a model with at least one term, rewrites the entry of
`label` alone: its terms are set one after the other in the map found under `label`. -/
theorem foldl_smooth_step_cons (label : String) (total : Nat) (lm : UMap TermID Nat)
    (c : TermID × Nat) (sms : UMap String (UMap TermID Dbl)) :
    (c :: lm).foldl (smooth_step label total) sms
      = sms.set label ((c :: lm).foldl
          (fun sm e => sm.set e.1 (Dbl.div (Dbl.ofNat e.2) (Dbl.ofNat total)))
          (sms.getD label [])) := by
  induction lm generalizing sms c with
  | nil => simp [smooth_step_eq]
  | cons c' lm ih =>
    rw [List.foldl_cons, ih, smooth_step_eq]
    simp [UMap.getD, UMap.find?_set_self, UMap.set_set]

theorem foldl_set_fresh (total : Nat) (lm : UMap TermID Nat) (sm : UMap TermID Dbl)
    (hwf : lm.WF) (hfresh : ∀ k ∈ lm.keys, k ∉ sm.keys) :
    lm.foldl (fun sm e => sm.set e.1 (Dbl.div (Dbl.ofNat e.2) (Dbl.ofNat total))) sm
      = sm ++ smoothed_entries total lm := by
  induction lm generalizing sm with
  | nil => simp [smoothed_entries]
  | cons c lm ih =>
    have hwf' : UMap.WF lm := by
      unfold UMap.WF UMap.keys at *
      exact (List.nodup_cons.1 hwf).2
    have hc : c.1 ∉ UMap.keys lm := by
      unfold UMap.WF UMap.keys at *
      exact (List.nodup_cons.1 hwf).1
    have hcsm : c.1 ∉ UMap.keys sm := hfresh c.1 (by simp [UMap.keys])
    rw [List.foldl_cons, UMap.set_of_not_mem sm c.1 _ hcsm, ih _ hwf']
    · simp [smoothed_entries]
    · intro k hk hk'
      simp only [UMap.keys, List.map_append, List.map_cons, List.map_nil, List.mem_append,
        List.mem_singleton] at hk'
      rcases hk' with hk' | hk'
      · exact hfresh k (by
          simp only [UMap.keys, List.map_cons, List.mem_cons]
          exact Or.inr hk) hk'
      · exact hc (hk' ▸ hk)

/-- The smoothing of a class that has no entry yet in `smoothed_models`: nothing is done for
a model without terms, and otherwise the entry of the class is created with the entries
`smoothed_entries`. -/
theorem smooth_class_eq (sms : UMap String (UMap TermID Dbl)) (label : String)
    (lm : UMap TermID Nat) (hfresh : sms.find? label = none) (hwf : lm.WF) :
    smooth_class sms label lm
      = if lm = [] then sms else sms.set label (smoothed_entries (total_count lm) lm) := by
  unfold smooth_class
  cases hlm : lm with
  | nil => simp
  | cons c lm' =>
    rw [foldl_smooth_step_cons, ← hlm]
    have h0 : sms.getD label [] = [] := by
      unfold UMap.getD
      rw [hfresh]
      rfl
    rw [h0, foldl_set_fresh _ lm [] hwf (by simp [UMap.keys])]
    simp [hlm]

theorem keys_smoothed_entries (total : Nat) (lm : UMap TermID Nat) :
    (smoothed_entries total lm).keys = lm.keys := by
  simp [smoothed_entries, UMap.keys]

theorem find?_smoothed_entries (total : Nat) (lm : UMap TermID Nat) (t : TermID) :
    (smoothed_entries total lm).find? t
      = (lm.find? t).map (fun c => Dbl.div (Dbl.ofNat c) (Dbl.ofNat total)) := by
  unfold smoothed_entries
  exact UMap.find?_map lm (fun c => Dbl.div (Dbl.ofNat c) (Dbl.ofNat total)) t

theorem div_ofNat (c total : Nat) (h : 0 < total) :
    Dbl.div (Dbl.ofNat c) (Dbl.ofNat total) = Dbl.fin ((c : ℚ) / (total : ℚ)) := by
  have h' : (total : ℚ) ≠ 0 := by exact_mod_cast Nat.pos_iff_ne_zero.1 h
  simp [Dbl.div, Dbl.ofNat, h']

theorem div_ofNat_zero (c : Nat) : Dbl.div (Dbl.ofNat c) (Dbl.ofNat 0) = Dbl.nonfin := by
  simp [Dbl.div, Dbl.ofNat]

/-- C6 (as stated, refuted): the language model `{7:0}`, built from one document that holds
term 7 with count 0, has total 0, and its smoothing raises no error: a smoothed model is
stored for the class, with a non-finite probability for term 7.  The same happens for the
language model `{0:0}` left by two documents that each count term 0 `2 ^ 31` times. -/
theorem C6_zero_total_is_smoothed :
    total_count (([[(7, 0)]] : List (UMap TermID Nat)).foldl combine_counts []) = 0
      ∧ smooth_class [] "english" (([[(7, 0)]] : List (UMap TermID Nat)).foldl combine_counts [])
        = [("english", [(7, Dbl.nonfin)])]
      ∧ smooth_class [] "chinese"
          (([[(0, 2147483648)], [(0, 2147483648)]] : List (UMap TermID Nat)).foldl
            combine_counts [])
        = [("chinese", [(0, Dbl.nonfin)])] := by
  refine ⟨by decide, by decide, by decide⟩

/-- C6 (amended): the smoothing of a language model whose total is 0 raises no error.  For a
model without terms it leaves the map of smoothed models as it is, with no entry for the
class; for a model with terms it stores a smoothed model with the keys of the language
model, in which every probability is the non-finite result of a division by zero. -/
theorem C6_zero_total_gives_nonfinite (sms : UMap String (UMap TermID Dbl)) (label : String)
    (lm : UMap TermID Nat) (hfresh : sms.find? label = none) (hwf : lm.WF)
    (hzero : total_count lm = 0) :
    (lm = [] → smooth_class sms label lm = sms ∧ (smooth_class sms label lm).find? label = none)
      ∧ (lm ≠ [] → ∃ sm, (smooth_class sms label lm).find? label = some sm
          ∧ sm.keys = lm.keys ∧ ∀ t ∈ sm.keys, sm.find? t = some Dbl.nonfin) := by
  rw [smooth_class_eq sms label lm hfresh hwf]
  refine ⟨fun h => ?_, fun h => ?_⟩
  · simp [h, hfresh]
  · rw [if_neg h, hzero]
    refine ⟨_, UMap.find?_set_self _ _ _, keys_smoothed_entries _ lm, fun t ht => ?_⟩
    rw [keys_smoothed_entries] at ht
    obtain ⟨c, hc⟩ := (UMap.find?_isSome_iff lm t).2 ht
    rw [find?_smoothed_entries, hc, Option.map_some', div_ofNat_zero]

/-- C6, at the language model `{7:0}` and the class "english". -/
theorem C6_zero_total_gives_nonfinite_witness :
    total_count [(7, 0)] = 0
      ∧ (([(7, 0)] : UMap TermID Nat) = [] → smooth_class [] "english" [(7, 0)] = []
          ∧ (smooth_class [] "english" [(7, 0)]).find? "english" = none)
      ∧ (([(7, 0)] : UMap TermID Nat) ≠ [] →
          ∃ sm, (smooth_class [] "english" [(7, 0)]).find? "english" = some sm
            ∧ sm.keys = UMap.keys ([(7, 0)] : UMap TermID Nat)
            ∧ ∀ t ∈ sm.keys, sm.find? t = some Dbl.nonfin) :=
  ⟨by decide, C6_zero_total_gives_nonfinite [] "english" [(7, 0)] (by decide) (by decide)
    (by decide)⟩

/-! ## The ranker -/

theorem mem_insert {κ : Type} [DecidableEq κ] (s : USet κ) (k x : κ) :
    x ∈ USet.insert s k ↔ x ∈ s ∨ x = k := by
  unfold USet.insert
  by_cases h : k ∈ s
  · simp only [h, if_true]
    constructor
    · exact fun hx => Or.inl hx
    · rintro (hx | hx)
      · exact hx
      · exact hx ▸ h
  · simp [h]

theorem nodup_insert {κ : Type} [DecidableEq κ] (s : USet κ) (k : κ) (hs : s.Nodup) :
    (USet.insert s k).Nodup := by
  unfold USet.insert
  by_cases h : k ∈ s
  · simpa [h] using hs
  · simp only [h, if_false]
    exact List.Nodup.append hs (List.nodup_singleton k) (by simpa using h)

theorem mem_foldl_insert (m : UMap TermID Dbl) (s : USet TermID) (x : TermID) :
    x ∈ m.foldl (fun s term => USet.insert s term.1) s ↔ x ∈ s ∨ x ∈ m.keys := by
  induction m generalizing s with
  | nil => simp [UMap.keys]
  | cons e m ih =>
    rw [List.foldl_cons, ih, mem_insert]
    simp only [UMap.keys, List.map_cons, List.mem_cons]
    tauto

theorem nodup_foldl_insert (m : UMap TermID Dbl) (s : USet TermID) (hs : s.Nodup) :
    (m.foldl (fun s term => USet.insert s term.1) s).Nodup := by
  induction m generalizing s with
  | nil => exact hs
  | cons e m ih => exact ih _ (nodup_insert s e.1 hs)

theorem mem_term_union (m1 m2 : UMap TermID Dbl) (t : TermID) :
    t ∈ term_union m1 m2 ↔ t ∈ m1.keys ∨ t ∈ m2.keys := by
  unfold term_union
  rw [mem_foldl_insert, mem_foldl_insert]
  simp

theorem nodup_term_union (m1 m2 : UMap TermID Dbl) : (term_union m1 m2).Nodup :=
  nodup_foldl_insert m2 _ (nodup_foldl_insert m1 [] List.nodup_nil)

theorem ratio_spec_index (m1 m2 : UMap TermID Dbl) (k t : TermID) :
    ratio_spec (m1.index k (Dbl.fin 0)) (m2.index k (Dbl.fin 0)) t = ratio_spec m1 m2 t := by
  unfold ratio_spec
  rw [UMap.getD_index, UMap.getD_index]

/-- The lines of the output loop: one per term of the list, in its order, each with the
ratio of the models the loop started from. -/
theorem foldl_ratio_step_out (getLabel : TermID → String) (ts : List TermID) (st : RankState) :
    (ts.foldl (ratio_step getLabel) st).out
      = st.out ++ ts.map (fun t => ⟨t, ratio_spec st.m1 st.m2 t, getLabel t⟩) := by
  induction ts generalizing st with
  | nil => simp
  | cons t ts ih =>
    rw [List.foldl_cons, ih]
    have hfun : (fun t' => (⟨t', ratio_spec (ratio_step getLabel st t).m1
        (ratio_step getLabel st t).m2 t', getLabel t'⟩ : FeatureScore))
        = fun t' => ⟨t', ratio_spec st.m1 st.m2 t', getLabel t'⟩ := by
      funext t'
      simp only [ratio_step, ratio_spec_index]
    rw [hfun]
    simp only [ratio_step, UMap.getD_index, List.map_cons, List.append_assoc,
      List.singleton_append, ratio_spec]

theorem foldl_ratio_step_m1 (getLabel : TermID → String) (ts : List TermID) (st : RankState) :
    (ts.foldl (ratio_step getLabel) st).m1
      = ts.foldl (fun m t => UMap.index m t (Dbl.fin 0)) st.m1 := by
  induction ts generalizing st with
  | nil => rfl
  | cons t ts ih =>
    rw [List.foldl_cons, ih]
    rfl

theorem foldl_ratio_step_m2 (getLabel : TermID → String) (ts : List TermID) (st : RankState) :
    (ts.foldl (ratio_step getLabel) st).m2
      = ts.foldl (fun m t => UMap.index m t (Dbl.fin 0)) st.m2 := by
  induction ts generalizing st with
  | nil => rfl
  | cons t ts ih =>
    rw [List.foldl_cons, ih]
    rfl

/-- Reading `m[t]` for every term of a list stores the default under each term that was not
a key, and changes no other lookup. -/
theorem find?_foldl_index (ts : List TermID) (m : UMap TermID Dbl) (d : Dbl) (k : TermID) :
    (ts.foldl (fun m t => UMap.index m t d) m).find? k
      = if k ∈ ts then some (m.getD k d) else m.find? k := by
  induction ts generalizing m with
  | nil => simp
  | cons t ts ih =>
    rw [List.foldl_cons, ih, UMap.getD_index, UMap.find?_index]
    by_cases h1 : k ∈ ts
    · simp [h1]
    · by_cases h2 : t = k
      · subst h2
        simp [h1]
      · have h3 : ¬ k = t := fun e => h2 e.symm
        simp [h1, h2, h3]

theorem compare_pair_out (getLabel : TermID → String) (m1 m2 : UMap TermID Dbl) :
    (compare_pair getLabel m1 m2).out
      = (term_union m1 m2).map (fun t => ⟨t, ratio_spec m1 m2 t, getLabel t⟩) := by
  unfold compare_pair
  rw [foldl_ratio_step_out]
  simp

theorem find?_compare_pair_m1 (getLabel : TermID → String) (m1 m2 : UMap TermID Dbl)
    (t : TermID) :
    (compare_pair getLabel m1 m2).m1.find? t
      = if t ∈ m1.keys ∨ t ∈ m2.keys then some (m1.getD t (Dbl.fin 0)) else m1.find? t := by
  unfold compare_pair
  rw [foldl_ratio_step_m1, find?_foldl_index]
  simp only [mem_term_union]

theorem find?_compare_pair_m2 (getLabel : TermID → String) (m1 m2 : UMap TermID Dbl)
    (t : TermID) :
    (compare_pair getLabel m1 m2).m2.find? t
      = if t ∈ m1.keys ∨ t ∈ m2.keys then some (m2.getD t (Dbl.fin 0)) else m2.find? t := by
  unfold compare_pair
  rw [foldl_ratio_step_m2, find?_foldl_index]
  simp only [mem_term_union]

theorem terms_of_compare_pair (getLabel : TermID → String) (m1 m2 : UMap TermID Dbl) :
    (compare_pair getLabel m1 m2).out.map FeatureScore.term = term_union m1 m2 := by
  rw [compare_pair_out, List.map_map]
  exact List.map_id _

/-- C5: the lines written for a pair of smoothed models hold each term of the union of the
two key sets exactly once, and no other term. -/
theorem C5_one_score_per_term (getLabel : TermID → String) (m1 m2 : UMap TermID Dbl) :
    ((compare_pair getLabel m1 m2).out.map FeatureScore.term).Nodup
      ∧ (∀ t : TermID, t ∈ (compare_pair getLabel m1 m2).out.map FeatureScore.term
          ↔ t ∈ m1.keys ∨ t ∈ m2.keys)
      ∧ ∀ t : TermID, ((compare_pair getLabel m1 m2).out.map FeatureScore.term).count t
          = if t ∈ m1.keys ∨ t ∈ m2.keys then 1 else 0 := by
  rw [terms_of_compare_pair]
  refine ⟨nodup_term_union m1 m2, mem_term_union m1 m2, fun t => ?_⟩
  by_cases h : t ∈ m1.keys ∨ t ∈ m2.keys
  · rw [if_pos h]
    exact List.count_eq_one_of_mem (nodup_term_union m1 m2) ((mem_term_union m1 m2 t).2 h)
  · rw [if_neg h]
    exact List.count_eq_zero_of_not_mem (fun hm => h ((mem_term_union m1 m2 t).1 hm))

/-- C10 (as stated, refuted): in the scenario the loop leaves the numerator model with the
new key 3 and the denominator model with the new key 2. -/
theorem C10_models_are_extended :
    (¬ ∀ (getLabel : TermID → String) (m1 m2 : UMap TermID Dbl), m1.WF → m2.WF →
      ∀ t : TermID, (compare_pair getLabel m1 m2).m1.find? t = m1.find? t
        ∧ (compare_pair getLabel m1 m2).m2.find? t = m2.find? t)
      ∧ (compare_pair (fun _ => "") smoothedA smoothedB).m1.keys = [1, 2, 3]
      ∧ (compare_pair (fun _ => "") smoothedA smoothedB).m2.keys = [1, 3, 2] := by
  refine ⟨fun h => ?_, by decide, by decide⟩
  have h3 := (h (fun _ => "") smoothedA smoothedB (by decide) (by decide) 3).1
  rw [find?_compare_pair_m1] at h3
  simp [smoothedA, smoothedB, UMap.keys, UMap.find?] at h3

/-- C10 (amended): the ratio loop changes and removes no entry of either smoothed model, and
it adds entries: after it, a term that one model held and the other lacked is a key of the
other too, with probability 0, and a term of neither model is a key of neither. -/
theorem C10_entries_kept_and_zero_added (getLabel : TermID → String) (m1 m2 : UMap TermID Dbl)
    (t : TermID) :
    (∀ p, m1.find? t = some p → (compare_pair getLabel m1 m2).m1.find? t = some p)
      ∧ (∀ p, m2.find? t = some p → (compare_pair getLabel m1 m2).m2.find? t = some p)
      ∧ (m1.find? t = none → t ∈ m2.keys →
          (compare_pair getLabel m1 m2).m1.find? t = some (Dbl.fin 0))
      ∧ (m2.find? t = none → t ∈ m1.keys →
          (compare_pair getLabel m1 m2).m2.find? t = some (Dbl.fin 0))
      ∧ (t ∉ m1.keys → t ∉ m2.keys →
          (compare_pair getLabel m1 m2).m1.find? t = none
            ∧ (compare_pair getLabel m1 m2).m2.find? t = none) := by
  rw [find?_compare_pair_m1, find?_compare_pair_m2]
  refine ⟨fun p hp => ?_, fun p hp => ?_, fun h1 h2 => ?_, fun h1 h2 => ?_, fun h1 h2 => ?_⟩
  · have hk : t ∈ m1.keys := (UMap.find?_isSome_iff m1 t).1 ⟨p, hp⟩
    simp [hk, UMap.getD, hp]
  · have hk : t ∈ m2.keys := (UMap.find?_isSome_iff m2 t).1 ⟨p, hp⟩
    simp [hk, UMap.getD, hp]
  · simp [h2, UMap.getD, h1]
  · simp [h2, UMap.getD, h1]
  · simp [h1, h2, (UMap.find?_eq_none_iff m1 t).2 h1, (UMap.find?_eq_none_iff m2 t).2 h2]

/-- C10, at the scenario models and the term 3, which only the denominator model holds. -/
theorem C10_entries_kept_and_zero_added_witness :
    smoothedA.find? 3 = none ∧ 3 ∈ smoothedB.keys
      ∧ (compare_pair (fun _ => "") smoothedA smoothedB).m1.find? 3 = some (Dbl.fin 0) :=
  ⟨by decide, by decide,
    (C10_entries_kept_and_zero_added (fun _ => "") smoothedA smoothedB 3).2.2.1 (by decide)
      (by decide)⟩

/-! ## Range of the probabilities -/

theorem le_value_sum_of_find? (lm : UMap TermID Nat) (t : TermID) (c : Nat)
    (h : lm.find? t = some c) : c ≤ value_sum lm := by
  have hmem : c ∈ lm.map Prod.snd := List.mem_map.2 ⟨(t, c), mem_of_find?_eq_some lm t c h, rfl⟩
  exact List.single_le_sum (fun _ _ => Nat.zero_le _) _ hmem

theorem smooth_zero_count_scenario :
    smooth_class [] "A" [(1, 0), (2, 3)] = [("A", [(1, Dbl.fin 0), (2, Dbl.fin 1)])] := by
  rw [smooth_class_eq _ _ _ (by decide) (by decide)]
  have ht : total_count [(1, 0), (2, 3)] = 3 := by decide
  rw [ht]
  simp [smoothed_entries, UMap.set, Dbl.div, Dbl.ofNat]

/-- C11 (as stated, refuted): the language model `{1:0, 2:3}`, built from one document with
these counts, has total 3, and its smoothed model `{1:0, 2:1}` stores the probability 0 for
term 1, which is not strictly greater than 0. -/
theorem C11_zero_probability_is_stored :
    (¬ ∀ (sms : UMap String (UMap TermID Dbl)) (label : String) (lm : UMap TermID Nat),
      sms.find? label = none → ValidCounts lm → 0 < value_sum lm →
      ∀ sm, (smooth_class sms label lm).find? label = some sm →
      ∀ (t : TermID) (p : Dbl), sm.find? t = some p → ∃ q : ℚ, p = Dbl.fin q ∧ 0 < q ∧ q ≤ 1)
      ∧ ([[(1, 0), (2, 3)]] : List (UMap TermID Nat)).foldl combine_counts [] = [(1, 0), (2, 3)]
      ∧ smooth_class [] "A" [(1, 0), (2, 3)] = [("A", [(1, Dbl.fin 0), (2, Dbl.fin 1)])] := by
  refine ⟨fun h => ?_, by decide, smooth_zero_count_scenario⟩
  have h1 := h [] "A" [(1, 0), (2, 3)] (by decide) (by decide) (by decide)
    [(1, Dbl.fin 0), (2, Dbl.fin 1)]
    (by rw [smooth_zero_count_scenario]; simp [UMap.find?]) 1 (Dbl.fin 0)
    (by simp [UMap.find?])
  obtain ⟨q, hq, hpos, _⟩ := h1
  have hq0 : (0 : ℚ) = q := by
    injection hq
  rw [← hq0] at hpos
  exact lt_irrefl _ hpos

/-- C11 (amended): in the smoothed model of a language model whose counts add up to a
positive total (one that `size_t` holds), every stored probability is a finite number of the
closed interval [0, 1], and it is strictly greater than 0 exactly when the stored count of
its term is. -/
theorem C11_probability_in_unit_interval (sms : UMap String (UMap TermID Dbl)) (label : String)
    (lm : UMap TermID Nat) (hfresh : sms.find? label = none) (hwf : lm.WF)
    (hpos : 0 < value_sum lm) (hfit : value_sum lm < SIZE_RANGE) :
    ∃ sm, (smooth_class sms label lm).find? label = some sm ∧ sm.keys = lm.keys
      ∧ ∀ (t : TermID) (c : Nat), lm.find? t = some c →
          ∃ p : ℚ, sm.find? t = some (Dbl.fin p) ∧ 0 ≤ p ∧ p ≤ 1 ∧ (0 < p ↔ 0 < c) := by
  have hne : lm ≠ [] := by
    rintro rfl
    simp [value_sum] at hpos
  rw [smooth_class_eq sms label lm hfresh hwf, if_neg hne, total_count_eq lm hfit]
  refine ⟨_, UMap.find?_set_self _ _ _, keys_smoothed_entries _ lm, fun t c hc => ?_⟩
  have hle : c ≤ value_sum lm := le_value_sum_of_find? lm t c hc
  have hposq : (0 : ℚ) < (value_sum lm : ℚ) := by exact_mod_cast hpos
  have hleq : (c : ℚ) ≤ (value_sum lm : ℚ) := by exact_mod_cast hle
  refine ⟨(c : ℚ) / (value_sum lm : ℚ), ?_, ?_, ?_, ?_⟩
  · rw [find?_smoothed_entries, hc, Option.map_some', div_ofNat c _ hpos]
  · exact div_nonneg (by exact_mod_cast Nat.zero_le c) (le_of_lt hposq)
  · exact (div_le_one hposq).2 hleq
  · rw [div_pos_iff_of_pos_right hposq]
    exact_mod_cast Iff.rfl

/-- C11, at the language model `{1:3, 2:1}` of class "A", smoothed into an empty map of
models. -/
theorem C11_probability_in_unit_interval_witness :
    ∃ sm, (smooth_class [] "A" scenarioA).find? "A" = some sm ∧ sm.keys = scenarioA.keys
      ∧ ∀ (t : TermID) (c : Nat), scenarioA.find? t = some c →
          ∃ p : ℚ, sm.find? t = some (Dbl.fin p) ∧ 0 ≤ p ∧ p ≤ 1 ∧ (0 < p ↔ 0 < c) :=
  C11_probability_in_unit_interval [] "A" scenarioA (by decide) (by decide) (by decide)
    (by decide)

/-! ## Width of the counters -/

/-- C20: the count stored for a term after the documents of a class were merged is the sum of
its counts in the documents modulo `2 ^ 32`, which is the sum itself exactly when that sum is
below `2 ^ 32`; the total of `main` is the sum of the stored counts modulo `2 ^ 64`, so for two
documents that each count term 0 `2 ^ 31` times the stored count and the total are both 0. -/
theorem C20_counts_wrap_at_32_bits (docs : List (UMap TermID Nat)) (hwf : ∀ d ∈ docs, d.WF)
    (t : TermID) :
    (docs.foldl combine_counts []).getD t 0
        = (docs.map (fun d => doc_count d t)).sum % 2 ^ 32
      ∧ ((docs.foldl combine_counts []).getD t 0 = (docs.map (fun d => doc_count d t)).sum
          ↔ (docs.map (fun d => doc_count d t)).sum < 2 ^ 32)
      ∧ total_count (docs.foldl combine_counts [])
          = value_sum (docs.foldl combine_counts []) % 2 ^ 64
      ∧ total_count (([[(0, 2147483648)], [(0, 2147483648)]] : List (UMap TermID Nat)).foldl
          combine_counts []) = 0 := by
  have h := stored_count_eq_mod docs hwf t
  unfold UINT_RANGE at h
  refine ⟨h, ?_, total_count_eq_mod _, by decide⟩
  rw [h]
  constructor
  · intro he
    rw [← he]
    exact Nat.mod_lt _ (by norm_num)
  · exact fun hlt => Nat.mod_eq_of_lt hlt

/-- C20, at the two documents `{1:3, 2:1}` and `{1:1, 3:2}` and the term 1. -/
theorem C20_counts_wrap_at_32_bits_witness :
    ([scenarioA, scenarioB].foldl combine_counts []).getD 1 0
        = ([scenarioA, scenarioB].map (fun d => doc_count d 1)).sum % 2 ^ 32
      ∧ (([scenarioA, scenarioB].foldl combine_counts []).getD 1 0
          = ([scenarioA, scenarioB].map (fun d => doc_count d 1)).sum
          ↔ ([scenarioA, scenarioB].map (fun d => doc_count d 1)).sum < 2 ^ 32)
      ∧ total_count ([scenarioA, scenarioB].foldl combine_counts [])
          = value_sum ([scenarioA, scenarioB].foldl combine_counts []) % 2 ^ 64
      ∧ total_count (([[(0, 2147483648)], [(0, 2147483648)]] : List (UMap TermID Nat)).foldl
          combine_counts []) = 0 :=
  C20_counts_wrap_at_32_bits [scenarioA, scenarioB] (by decide) 1

/-! ## Order of the documents -/

theorem find?_add_count (lm : UMap TermID Nat) (c : TermID × Nat) (t : TermID) :
    (add_count lm c).find? t
      = if c.1 = t then some ((lm.getD t 0 + c.2) % UINT_RANGE) else lm.find? t := by
  rw [add_count_eq, UMap.find?_set]
  by_cases h : c.1 = t
  · subst h
    simp
  · simp [h]

/-- The lookups after one merge of a well-formed document. -/
theorem find?_combine_counts (lm d : UMap TermID Nat) (hd : d.WF) (t : TermID) :
    (combine_counts lm d).find? t
      = if t ∈ d.keys then some ((lm.getD t 0 + doc_count d t) % UINT_RANGE) else lm.find? t := by
  unfold combine_counts
  induction d generalizing lm with
  | nil => simp [UMap.keys]
  | cons c d ih =>
    have hd' : UMap.WF d := by
      unfold UMap.WF UMap.keys at *
      exact (List.nodup_cons.1 hd).2
    have hc : c.1 ∉ UMap.keys d := by
      unfold UMap.WF UMap.keys at *
      exact (List.nodup_cons.1 hd).1
    have hkeys : t ∈ UMap.keys (c :: d) ↔ t = c.1 ∨ t ∈ UMap.keys d := by
      simp [UMap.keys]
    rw [List.foldl_cons, ih _ hd', getD_add_count, find?_add_count, doc_count_cons]
    by_cases h1 : t ∈ UMap.keys d
    · have h2 : ¬ c.1 = t := fun e => hc (e ▸ h1)
      have h3 : t ∈ UMap.keys (c :: d) := hkeys.2 (Or.inr h1)
      simp [h1, h2, h3]
    · by_cases h2 : c.1 = t
      · have h3 : t ∈ UMap.keys (c :: d) := hkeys.2 (Or.inl h2.symm)
        simp [h1, h2, h3]
      · have h3 : t ∉ UMap.keys (c :: d) := fun hm => by
          rcases hkeys.1 hm with e | e
          · exact h2 e.symm
          · exact h1 e
        simp [h1, h2, h3]

theorem combine_counts_congr (lm lm' d : UMap TermID Nat) (hd : d.WF)
    (h : ∀ t, lm.find? t = lm'.find? t) (t : TermID) :
    (combine_counts lm d).find? t = (combine_counts lm' d).find? t := by
  rw [find?_combine_counts lm d hd, find?_combine_counts lm' d hd]
  unfold UMap.getD
  rw [h t]

/-- Two merges can be swapped: the lookups of the language model are the same. -/
theorem combine_counts_comm (lm d1 d2 : UMap TermID Nat) (h1 : d1.WF) (h2 : d2.WF)
    (t : TermID) :
    (combine_counts (combine_counts lm d1) d2).find? t
      = (combine_counts (combine_counts lm d2) d1).find? t := by
  have g1 : (combine_counts lm d1).getD t 0
      = if t ∈ d1.keys then (lm.getD t 0 + doc_count d1 t) % UINT_RANGE else lm.getD t 0 := by
    unfold UMap.getD
    rw [find?_combine_counts lm d1 h1]
    split_ifs <;> rfl
  have g2 : (combine_counts lm d2).getD t 0
      = if t ∈ d2.keys then (lm.getD t 0 + doc_count d2 t) % UINT_RANGE else lm.getD t 0 := by
    unfold UMap.getD
    rw [find?_combine_counts lm d2 h2]
    split_ifs <;> rfl
  rw [find?_combine_counts (combine_counts lm d1) d2 h2,
    find?_combine_counts (combine_counts lm d2) d1 h1, g1, g2,
    find?_combine_counts lm d1 h1, find?_combine_counts lm d2 h2]
  by_cases k1 : t ∈ d1.keys
  · by_cases k2 : t ∈ d2.keys
    · simp only [k1, k2, if_true, Option.some.injEq]
      rw [Nat.mod_add_mod, Nat.mod_add_mod]
      congr 1
      omega
    · simp [k1, k2]
  · by_cases k2 : t ∈ d2.keys
    · simp [k1, k2]
    · simp [k1, k2]

theorem foldl_combine_counts_congr (docs : List (UMap TermID Nat)) (lm lm' : UMap TermID Nat)
    (hwf : ∀ d ∈ docs, d.WF) (h : ∀ t, lm.find? t = lm'.find? t) (t : TermID) :
    (docs.foldl combine_counts lm).find? t = (docs.foldl combine_counts lm').find? t := by
  induction docs generalizing lm lm' t with
  | nil => exact h t
  | cons d docs ih =>
    have h1 : ∀ d' ∈ docs, UMap.WF d' := fun d' hd' => hwf d' (List.mem_cons_of_mem _ hd')
    have h2 : UMap.WF d := hwf d (List.mem_cons_self _ _)
    exact ih _ _ h1 (fun t' => combine_counts_congr lm lm' d h2 h t') t

theorem foldl_combine_counts_perm (docs docs' : List (UMap TermID Nat)) (hperm : docs.Perm docs')
    (hwf : ∀ d ∈ docs, d.WF) (lm : UMap TermID Nat) (t : TermID) :
    (docs.foldl combine_counts lm).find? t = (docs'.foldl combine_counts lm).find? t := by
  induction hperm generalizing lm t with
  | nil => rfl
  | cons d _ ih =>
    exact ih (fun d' hd' => hwf d' (List.mem_cons_of_mem _ hd')) _ t
  | swap d1 d2 l =>
    have h1 : UMap.WF d1 := hwf d1 (by simp)
    have h2 : UMap.WF d2 := hwf d2 (by simp)
    have hl : ∀ d' ∈ l, UMap.WF d' := fun d' hd' => hwf d' (by simp [hd'])
    simp only [List.foldl_cons]
    exact foldl_combine_counts_congr l _ _ hl (fun t' => combine_counts_comm lm d2 d1 h2 h1 t') t
  | trans p1 _ ih1 ih2 =>
    rw [ih1 hwf lm t]
    exact ih2 (fun d' hd' => hwf d' (p1.mem_iff.2 hd')) lm t

/-- C18: merging the documents of a class in any other order, from the same starting model,
gives a language model with the same keys and the same count under each key. -/
theorem C18_merge_order_irrelevant (docs docs' : List (UMap TermID Nat))
    (hperm : docs.Perm docs') (hwf : ∀ d ∈ docs, d.WF) (lm : UMap TermID Nat) :
    (∀ t : TermID, (docs.foldl combine_counts lm).find? t
        = (docs'.foldl combine_counts lm).find? t)
      ∧ ∀ t : TermID, t ∈ (docs.foldl combine_counts lm).keys
        ↔ t ∈ (docs'.foldl combine_counts lm).keys := by
  have h := foldl_combine_counts_perm docs docs' hperm hwf lm
  refine ⟨h, fun t => ?_⟩
  rw [← UMap.find?_isSome_iff, ← UMap.find?_isSome_iff, h t]

/-- C18, at the documents `{1:3, 2:1}` and `{1:1, 3:2}` merged into `{2:5}` in both
orders. -/
theorem C18_merge_order_irrelevant_witness :
    (∀ t : TermID, ([scenarioA, scenarioB].foldl combine_counts [(2, 5)]).find? t
        = ([scenarioB, scenarioA].foldl combine_counts [(2, 5)]).find? t)
      ∧ ∀ t : TermID, t ∈ ([scenarioA, scenarioB].foldl combine_counts [(2, 5)]).keys
        ↔ t ∈ ([scenarioB, scenarioA].foldl combine_counts [(2, 5)]).keys :=
  C18_merge_order_irrelevant [scenarioA, scenarioB] [scenarioB, scenarioA]
    (List.Perm.swap scenarioB scenarioA []) (by decide) [(2, 5)]

/-! ## Properties of the ratio -/

theorem getD_of_find? (m : UMap TermID Dbl) (t : TermID) (v : Dbl) (h : m.find? t = some v) :
    m.getD t (Dbl.fin 0) = v := by
  unfold UMap.getD
  rw [h]
  rfl

/-- What `getClass` takes from the path: the characters before the first one of `chars`. -/
theorem substr_find_first_of (s chars : List Char) :
    substr s 0 (find_first_of s chars) = s.takeWhile (fun c => !decide (c ∈ chars)) := by
  induction s with
  | nil => simp [find_first_of, substr]
  | cons c rest ih =>
    by_cases hc : c ∈ chars
    · simp [find_first_of, substr, hc]
    · cases hf : find_first_of rest chars with
      | none =>
        rw [hf] at ih
        simp only [substr, List.drop_zero] at ih
        simp only [find_first_of, hc, if_false, hf, Option.map_none', substr, List.drop_zero,
          List.takeWhile_cons, decide_False, Bool.not_false, if_true]
        rw [← ih]
      | some i =>
        rw [hf] at ih
        simp only [substr, List.drop_zero] at ih
        simp only [find_first_of, hc, if_false, hf, Option.map_some', substr, List.drop_zero,
          List.take_succ_cons, List.takeWhile_cons, decide_False, Bool.not_false, if_true]
        rw [← ih]

theorem getClass_data (path : String) :
    (getClass path).data = path.data.takeWhile (fun c => !decide (c ∈ ['/'])) :=
  substr_find_first_of path.data ['/']

/-- C15: `getClass` returns the text of the path that precedes its first `/`, the whole path
when it holds no `/`; the result is an initial segment of the path and holds no `/`. -/
theorem C15_getClass_text_before_separator (path : String) :
    (∀ a b : List Char, path.data = a ++ '/' :: b → '/' ∉ a → (getClass path).data = a)
      ∧ ('/' ∉ path.data → getClass path = path)
      ∧ (getClass path).data <+: path.data
      ∧ '/' ∉ (getClass path).data
      ∧ getClass "chinese/news/doc1.txt" = "chinese"
      ∧ getClass "readme" = "readme" := by
  refine ⟨fun a b hab ha => ?_, fun h => ?_, ?_, fun h => ?_, by decide, by decide⟩
  · rw [getClass_data, hab, List.takeWhile_append_of_pos]
    · simp
    · intro x hx
      have hne : x ≠ '/' := fun e => ha (e ▸ hx)
      simp [hne]
  · have hd : (getClass path).data = path.data := by
      rw [getClass_data, List.takeWhile_eq_self_iff]
      intro x hx
      have hne : x ≠ '/' := fun e => h (e ▸ hx)
      simp [hne]
    calc getClass path = String.mk (getClass path).data := rfl
      _ = String.mk path.data := by rw [hd]
      _ = path := rfl
  · rw [getClass_data]
    exact ⟨_, List.takeWhile_append_dropWhile _ path.data⟩
  · rw [getClass_data] at h
    have := List.mem_takeWhile_imp h
    simp at this

/-- C15, at the path `english/a.txt`, split at its first `/`. -/
theorem C15_getClass_text_before_separator_witness :
    (getClass "english/a.txt").data = "english".data :=
  (C15_getClass_text_before_separator "english/a.txt").1 "english".data "a.txt".data
    (by decide) (by decide)

/-! ## The comparison step and the exit status -/

theorem compare_inner_eq (getLabel : TermID → String) (m1 : String × UMap TermID Dbl)
    (sms : UMap String (UMap TermID Dbl)) :
    compare_inner getLabel m1 sms
      = if m1.1 = "chinese" then
          (sms.find? "english").map (fun b =>
            CoutLine.header "chinese" "english"
              :: (compare_pair getLabel m1.2 b).out.map CoutLine.feature)
        else none := by
  induction sms with
  | nil =>
    by_cases h1 : m1.1 = "chinese"
    · simp [compare_inner, UMap.find?, h1]
    · simp [compare_inner, h1]
  | cons m2 rest ih =>
    obtain ⟨class2, model2⟩ := m2
    by_cases h1 : m1.1 = "chinese"
    · by_cases h2 : class2 = "english"
      · simp [compare_inner, UMap.find?, h1, h2]
      · simp only [compare_inner, h1, h2, and_false, if_false, ih, if_true, UMap.find?]
    · simp only [compare_inner, h1, false_and, if_false, ih]

theorem compare_outer_eq (getLabel : TermID → String) (sms rest : UMap String (UMap TermID Dbl)) :
    compare_outer getLabel sms rest
      = match rest.find? "chinese", sms.find? "english" with
        | some a, some b =>
          some (CoutLine.header "chinese" "english"
            :: (compare_pair getLabel a b).out.map CoutLine.feature)
        | _, _ => none := by
  induction rest with
  | nil => simp [compare_outer, UMap.find?]
  | cons m1 rest ih =>
    obtain ⟨class1, model1⟩ := m1
    by_cases h1 : class1 = "chinese"
    · cases hf : sms.find? "english" with
      | none =>
        simp only [compare_outer, compare_inner_eq, h1, if_true, hf, Option.map_none', ih]
        cases UMap.find? rest "chinese" <;> rfl
      | some b =>
        simp [compare_outer, compare_inner_eq, h1, hf, UMap.find?]
    · simp only [compare_outer, compare_inner_eq, h1, if_false, ih, UMap.find?]

/-- The comparison step writes the header and the lines of the pair when "chinese" and
"english" both have a smoothed model, and nothing otherwise. -/
theorem comparison_eq (getLabel : TermID → String) (sms : UMap String (UMap TermID Dbl)) :
    comparison getLabel sms
      = match sms.find? "chinese", sms.find? "english" with
        | some a, some b =>
          (0, CoutLine.header "chinese" "english"
            :: (compare_pair getLabel a b).out.map CoutLine.feature)
        | _, _ => (0, []) := by
  unfold comparison
  rw [compare_outer_eq]
  cases sms.find? "chinese" with
  | none => rfl
  | some a =>
    cases sms.find? "english" with
    | none => rfl
    | some b => rfl

theorem comparison_status (getLabel : TermID → String) (sms : UMap String (UMap TermID Dbl)) :
    (comparison getLabel sms).1 = 0 := by
  unfold comparison
  cases compare_outer getLabel sms sms <;> rfl

/-- C16: the comparison step writes feature lines for one ordered pair only, numerator
"chinese" and denominator "english", and it does so exactly when both classes have a smoothed
model: then the header of that pair and the lines of `compare_pair` are written, wherever the
two models stand in the map; when one of the two classes has no smoothed model, nothing is
written.  The exit status is 0 in all cases. -/
theorem C16_only_chinese_english_compared (getLabel : TermID → String)
    (sms : UMap String (UMap TermID Dbl)) :
    (∀ a b, sms.find? "chinese" = some a → sms.find? "english" = some b →
        comparison getLabel sms
          = (0, CoutLine.header "chinese" "english"
              :: (compare_pair getLabel a b).out.map CoutLine.feature))
      ∧ (sms.find? "chinese" = none ∨ sms.find? "english" = none →
          comparison getLabel sms = (0, []))
      ∧ (comparison getLabel sms).1 = 0
      ∧ (∀ {δ : Type} (tokenizer : Tokenizer δ) (docs : UMap String (List δ)),
          (pipeline tokenizer docs).status = 0)
      ∧ comparison getLabel [("english", smoothedB), ("chinese", smoothedA)]
          = (0, CoutLine.header "chinese" "english"
              :: (compare_pair getLabel smoothedA smoothedB).out.map CoutLine.feature)
      ∧ comparison getLabel [("english", smoothedB), ("spanish", smoothedA)] = (0, []) := by
  refine ⟨fun a b ha hb => ?_, fun h => ?_, comparison_status getLabel sms,
    fun tokenizer docs => comparison_status _ _, ?_, ?_⟩
  · rw [comparison_eq, ha, hb]
  · rw [comparison_eq]
    rcases h with h | h
    · rw [h]
    · rw [h]
      cases sms.find? "chinese" <;> rfl
  · rw [comparison_eq]
    rfl
  · rw [comparison_eq]
    rfl

/-- C16, at the map that holds the scenario models under "english" and "chinese". -/
theorem C16_only_chinese_english_compared_witness :
    comparison (fun _ => "") [("english", smoothedB), ("chinese", smoothedA)]
      = (0, CoutLine.header "chinese" "english"
          :: (compare_pair (fun _ => "") smoothedA smoothedB).out.map CoutLine.feature) :=
  (C16_only_chinese_english_compared (fun _ => "")
    [("english", smoothedB), ("chinese", smoothedA)]).1 smoothedA smoothedB rfl rfl

/-- C17: when the method of the configuration is neither "ngram" nor "tree", `main` returns 1
and has tokenized no document, built no language model or smoothed model and written no line;
for the method "ngram" or "tree" it runs the pipeline with the tokenizer of that method and
returns its status 0. -/
theorem C17_unknown_method_returns_1 {δ : Type} (config : UMap String String)
    (docs : UMap String (List δ)) (newNgram newTree : UMap String String → Tokenizer δ) :
    (config.getD "method" "" ≠ "ngram" → config.getD "method" "" ≠ "tree" →
        (main 2 config docs newNgram newTree).status = 1
          ∧ (main 2 config docs newNgram newTree).cout = []
          ∧ (main 2 config docs newNgram newTree).tokenized = 0
          ∧ (main 2 config docs newNgram newTree).language_models = []
          ∧ (main 2 config docs newNgram newTree).smoothed_models = [])
      ∧ (config.getD "method" "" = "ngram" →
          main 2 config docs newNgram newTree = pipeline (newNgram config) docs
            ∧ (main 2 config docs newNgram newTree).status = 0)
      ∧ (config.getD "method" "" = "tree" →
          main 2 config docs newNgram newTree = pipeline (newTree config) docs
            ∧ (main 2 config docs newNgram newTree).status = 0) := by
  refine ⟨fun h1 h2 => ?_, fun h => ?_, fun h => ?_⟩
  · simp [main, h1, h2]
  · have hm : main 2 config docs newNgram newTree = pipeline (newNgram config) docs := by
      simp [main, h]
    rw [hm]
    exact ⟨rfl, comparison_status _ _⟩
  · have hne : config.getD "method" "" ≠ "ngram" := by
      rw [h]
      decide
    have hm : main 2 config docs newNgram newTree = pipeline (newTree config) docs := by
      simp [main, h]
    rw [hm]
    exact ⟨rfl, comparison_status _ _⟩

/-- C17, at the configuration `method = "svm"` and one document of class "chinese". -/
theorem C17_unknown_method_returns_1_witness :
    (main 2 [("method", "svm")] [("chinese", [scenarioA])]
        (fun _ => Tokenizer.mk id (fun _ => "")) (fun _ => Tokenizer.mk id (fun _ => ""))).status
        = 1
      ∧ (main 2 [("method", "svm")] [("chinese", [scenarioA])]
        (fun _ => Tokenizer.mk id (fun _ => "")) (fun _ => Tokenizer.mk id (fun _ => ""))).cout
        = []
      ∧ (main 2 [("method", "svm")] [("chinese", [scenarioA])]
        (fun _ => Tokenizer.mk id (fun _ => "")) (fun _ => Tokenizer.mk id (fun _ => ""))).tokenized
        = 0
      ∧ (main 2 [("method", "svm")] [("chinese", [scenarioA])]
        (fun _ => Tokenizer.mk id (fun _ => ""))
        (fun _ => Tokenizer.mk id (fun _ => ""))).language_models = []
      ∧ (main 2 [("method", "svm")] [("chinese", [scenarioA])]
        (fun _ => Tokenizer.mk id (fun _ => ""))
        (fun _ => Tokenizer.mk id (fun _ => ""))).smoothed_models = [] :=
  (C17_unknown_method_returns_1 [("method", "svm")] [("chinese", [scenarioA])]
    (fun _ => Tokenizer.mk id (fun _ => "")) (fun _ => Tokenizer.mk id (fun _ => ""))).1
    (by decide) (by decide)

/-! ## Classes without terms -/

theorem find?_of_mem {κ ν : Type} [DecidableEq κ] (m : UMap κ ν) (hm : m.WF) (k : κ) (v : ν)
    (h : (k, v) ∈ m) : m.find? k = some v := by
  induction m with
  | nil => simp at h
  | cons e m ih =>
    obtain ⟨k', v'⟩ := e
    have hm' : UMap.WF m := by
      unfold UMap.WF UMap.keys at *
      exact (List.nodup_cons.1 hm).2
    have hk' : k' ∉ UMap.keys m := by
      unfold UMap.WF UMap.keys at *
      exact (List.nodup_cons.1 hm).1
    rcases List.mem_cons.1 h with e | hmem
    · have e1 : k = k' := (Prod.mk.inj e).1
      have e2 : v = v' := (Prod.mk.inj e).2
      simp [UMap.find?, e1, e2]
    · have hne : ¬ k' = k := by
        intro e
        apply hk'
        rw [e]
        exact List.mem_map.2 ⟨(k, v), hmem, rfl⟩
      simp only [UMap.find?, hne, if_false]
      exact ih hm' hmem

/-- The smoothing of one class changes no entry of another class, and none at all when the
model of the class has no terms. -/
theorem find?_smooth_class_other (sms : UMap String (UMap TermID Dbl)) (label other : String)
    (lm : UMap TermID Nat) (h : label ≠ other ∨ lm = []) :
    (smooth_class sms label lm).find? other = sms.find? other := by
  unfold smooth_class
  cases lm with
  | nil => rfl
  | cons c lm =>
    rcases h with h | h
    · rw [foldl_smooth_step_cons, UMap.find?_set_ne _ _ h]
    · exact absurd h (List.cons_ne_nil _ _)

theorem find?_foldl_smooth_class (lms : UMap String (UMap TermID Nat))
    (sms : UMap String (UMap TermID Dbl)) (label : String) (hsms : sms.find? label = none)
    (hlms : ∀ e ∈ lms, e.1 = label → e.2 = []) :
    (lms.foldl (fun sms model => smooth_class sms model.1 model.2) sms).find? label = none := by
  induction lms generalizing sms with
  | nil => exact hsms
  | cons e lms ih =>
    rw [List.foldl_cons]
    apply ih
    · rw [find?_smooth_class_other, hsms]
      by_cases he : e.1 = label
      · exact Or.inr (hlms e (List.mem_cons_self _ _) he)
      · exact Or.inl he
    · exact fun e' he' => hlms e' (List.mem_cons_of_mem _ he')

/-- A class whose language model has no terms gets no smoothed model. -/
theorem find?_smooth_all_empty (lms : UMap String (UMap TermID Nat)) (label : String)
    (hwf : lms.WF) (hempty : lms.find? label = some []) :
    (smooth_all lms).find? label = none := by
  unfold smooth_all
  apply find?_foldl_smooth_class lms [] label rfl
  intro e he hlabel
  have h1 : lms.find? e.1 = some e.2 := find?_of_mem lms hwf e.1 e.2 he
  rw [hlabel, hempty] at h1
  exact (Option.some.inj h1).symm

theorem tokenize_step_eq {δ : Type} (tokenizer : Tokenizer δ) (label : String)
    (lms : UMap String (UMap TermID Nat)) (doc : δ) :
    tokenize_step tokenizer label lms doc
      = lms.set label (combine_counts (lms.getD label []) (tokenizer.tokenize doc)) := by
  unfold tokenize_step
  simp only [UMap.set_index, UMap.getD_index]

/-- The inner tokenizing loop over the documents of one class, when there is at least one:
the entry of the class becomes the model it had, or the empty one, with every document
merged into it. -/
theorem foldl_tokenize_step_cons {δ : Type} (tokenizer : Tokenizer δ) (label : String)
    (ds : List δ) (d : δ) (lms : UMap String (UMap TermID Nat)) :
    (d :: ds).foldl (tokenize_step tokenizer label) lms
      = lms.set label (((d :: ds).map tokenizer.tokenize).foldl combine_counts
          (lms.getD label [])) := by
  induction ds generalizing lms d with
  | nil => simp [tokenize_step_eq]
  | cons d' ds ih =>
    rw [List.foldl_cons, ih, tokenize_step_eq]
    simp [UMap.getD, UMap.find?_set_self, UMap.set_set]

theorem foldl_combine_counts_nil (docs : List (UMap TermID Nat)) (lm : UMap TermID Nat)
    (h : ∀ d ∈ docs, d = []) : docs.foldl combine_counts lm = lm := by
  induction docs with
  | nil => rfl
  | cons d docs ih =>
    have hd : d = [] := h d (List.mem_cons_self _ _)
    rw [List.foldl_cons, hd]
    exact ih (fun d' hd' => h d' (List.mem_cons_of_mem _ hd'))

theorem WF_foldl_tokenize_step {δ : Type} (tokenizer : Tokenizer δ) (label : String)
    (ds : List δ) (lms : UMap String (UMap TermID Nat)) (h : lms.WF) :
    (ds.foldl (tokenize_step tokenizer label) lms).WF := by
  cases ds with
  | nil => exact h
  | cons d ds =>
    rw [foldl_tokenize_step_cons]
    exact UMap.WF_set _ _ _ h

theorem find?_foldl_tokenize_step_other {δ : Type} (tokenizer : Tokenizer δ)
    (label other : String) (ds : List δ) (lms : UMap String (UMap TermID Nat))
    (h : label ≠ other) :
    (ds.foldl (tokenize_step tokenizer label) lms).find? other = lms.find? other := by
  cases ds with
  | nil => rfl
  | cons d ds => rw [foldl_tokenize_step_cons, UMap.find?_set_ne _ _ h]

theorem WF_foldl_build {δ : Type} (tokenizer : Tokenizer δ) (docs : UMap String (List δ))
    (lms : UMap String (UMap TermID Nat)) (h : lms.WF) :
    (docs.foldl (fun lms str => str.2.foldl (tokenize_step tokenizer str.1) lms) lms).WF := by
  induction docs generalizing lms with
  | nil => exact h
  | cons str docs ih =>
    rw [List.foldl_cons]
    exact ih _ (WF_foldl_tokenize_step tokenizer str.1 str.2 lms h)

theorem find?_foldl_build_other {δ : Type} (tokenizer : Tokenizer δ)
    (docs : UMap String (List δ)) (lms : UMap String (UMap TermID Nat)) (label : String)
    (h : label ∉ UMap.keys docs) :
    (docs.foldl (fun lms str => str.2.foldl (tokenize_step tokenizer str.1) lms) lms).find? label
      = lms.find? label := by
  induction docs generalizing lms with
  | nil => rfl
  | cons str docs ih =>
    have h1 : str.1 ≠ label := by
      intro e
      apply h
      simp [UMap.keys, e]
    have h2 : label ∉ UMap.keys docs := by
      intro hk
      apply h
      simp only [UMap.keys] at hk
      simp [UMap.keys, hk]
    rw [List.foldl_cons, ih _ h2, find?_foldl_tokenize_step_other tokenizer _ _ _ _ h1]

/-- A class with documents that all tokenize to no counts gets the empty language model. -/
theorem find?_foldl_build_empty {δ : Type} (tokenizer : Tokenizer δ)
    (docs : UMap String (List δ)) (lms : UMap String (UMap TermID Nat)) (label : String)
    (ds : List δ) (hwf : UMap.WF docs) (hds : UMap.find? docs label = some ds) (hne : ds ≠ [])
    (hempty : ∀ d ∈ ds, tokenizer.tokenize d = []) (hfresh : lms.find? label = none) :
    (docs.foldl (fun lms str => str.2.foldl (tokenize_step tokenizer str.1) lms) lms).find? label
      = some [] := by
  induction docs generalizing lms with
  | nil => simp [UMap.find?] at hds
  | cons str docs ih =>
    obtain ⟨l, ds'⟩ := str
    have hwf' : UMap.WF docs := by
      unfold UMap.WF UMap.keys at *
      exact (List.nodup_cons.1 hwf).2
    have hl : l ∉ UMap.keys docs := by
      unfold UMap.WF UMap.keys at *
      exact (List.nodup_cons.1 hwf).1
    rw [List.foldl_cons]
    by_cases h : l = label
    · subst h
      simp only [UMap.find?, if_true, Option.some.injEq] at hds
      subst hds
      rw [find?_foldl_build_other tokenizer docs _ l hl]
      cases ds' with
      | nil => exact absurd rfl hne
      | cons d ds =>
        have h0 : lms.getD l [] = [] := by
          unfold UMap.getD
          rw [hfresh]
          rfl
        rw [foldl_tokenize_step_cons, UMap.find?_set_self, h0, foldl_combine_counts_nil]
        intro x hx
        obtain ⟨y, hy, rfl⟩ := List.mem_map.1 hx
        exact hempty y hy
    · simp only [UMap.find?, h, if_false] at hds
      apply ih _ hwf' hds
      rw [find?_foldl_tokenize_step_other tokenizer _ _ _ _ h]
      exact hfresh

/-- C19: a class whose language model has no terms gets no entry in the smoothed models, and
when that class is "chinese" or "english" the comparison step writes nothing and the status
is 0; this is what the whole pipeline does when every document of such a class tokenizes to
an empty map of counts. -/
theorem C19_empty_class_is_skipped :
    (∀ (getLabel : TermID → String) (lms : UMap String (UMap TermID Nat)) (label : String),
        lms.WF → lms.find? label = some [] →
        (smooth_all lms).find? label = none
          ∧ (label = "chinese" ∨ label = "english" →
              comparison getLabel (smooth_all lms) = (0, [])))
      ∧ ∀ {δ : Type} (tokenizer : Tokenizer δ) (docs : UMap String (List δ)) (label : String)
          (ds : List δ),
        docs.WF → docs.find? label = some ds → ds ≠ [] →
        (∀ d ∈ ds, tokenizer.tokenize d = []) → label = "chinese" ∨ label = "english" →
        (pipeline tokenizer docs).language_models.find? label = some []
          ∧ (pipeline tokenizer docs).smoothed_models.find? label = none
          ∧ (pipeline tokenizer docs).cout = []
          ∧ (pipeline tokenizer docs).status = 0 := by
  have key : ∀ (getLabel : TermID → String) (lms : UMap String (UMap TermID Nat))
      (label : String), lms.WF → lms.find? label = some [] →
      (smooth_all lms).find? label = none
        ∧ (label = "chinese" ∨ label = "english" →
            comparison getLabel (smooth_all lms) = (0, [])) := by
    intro getLabel lms label hwf hempty
    have hnone := find?_smooth_all_empty lms label hwf hempty
    refine ⟨hnone, fun hl => ?_⟩
    rw [comparison_eq]
    rcases hl with hl | hl
    · rw [← hl, hnone]
    · rw [← hl, hnone]
      cases (smooth_all lms).find? "chinese" <;> rfl
  refine ⟨key, fun tokenizer docs label ds hwf hds hne hempty hl => ?_⟩
  have hlm : (build_models tokenizer docs).find? label = some [] :=
    find?_foldl_build_empty tokenizer docs [] label ds hwf hds hne hempty rfl
  have hwflm : (build_models tokenizer docs).WF :=
    WF_foldl_build tokenizer docs [] (by simp [UMap.WF, UMap.keys])
  have h := key tokenizer.getLabel (build_models tokenizer docs) label hwflm hlm
  refine ⟨hlm, h.1, ?_, comparison_status _ _⟩
  show (comparison tokenizer.getLabel (smooth_all (build_models tokenizer docs))).2 = []
  rw [h.2 hl]

/-- C19, at a corpus whose class "chinese" has one document without counts and whose class
"english" has the document `{1:1, 3:2}`. -/
theorem C19_empty_class_is_skipped_witness :
    (pipeline (Tokenizer.mk id (fun _ => "")) [("chinese", [[]]), ("english", [scenarioB])]
        ).language_models.find? "chinese" = some []
      ∧ (pipeline (Tokenizer.mk id (fun _ => "")) [("chinese", [[]]), ("english", [scenarioB])]
        ).smoothed_models.find? "chinese" = none
      ∧ (pipeline (Tokenizer.mk id (fun _ => "")) [("chinese", [[]]), ("english", [scenarioB])]
        ).cout = []
      ∧ (pipeline (Tokenizer.mk id (fun _ => "")) [("chinese", [[]]), ("english", [scenarioB])]
        ).status = 0 :=
  C19_empty_class_is_skipped.2 (Tokenizer.mk id (fun _ => ""))
    [("chinese", [[]]), ("english", [scenarioB])] "chinese" [[]] (by decide) (by decide)
    (by decide) (by decide) (by decide)

/-! ## Rounding to binary64 -/

namespace F64

theorem roundEven_sub_le (y : ℚ) : |y - roundEven y| ≤ 1 / 2 := by
  have h1 : (⌊y⌋ : ℚ) ≤ y := Int.floor_le y
  have h2 : y < ⌊y⌋ + 1 := Int.lt_floor_add_one y
  unfold roundEven
  split_ifs with c1 c2 c3
  · rw [abs_le]
    constructor <;> linarith
  · push_cast
    rw [abs_le]
    constructor <;> linarith
  · rw [abs_le]
    constructor <;> linarith
  · push_cast
    rw [abs_le]
    constructor <;> linarith

theorem roundEven_eq_of_near (y : ℚ) (n : ℤ) (h : |y - n| < 1 / 2) : roundEven y = n := by
  rw [abs_lt] at h
  obtain ⟨h1, h2⟩ := h
  unfold roundEven
  by_cases hy : (n : ℚ) ≤ y
  · have hf : ⌊y⌋ = n := by
      rw [Int.floor_eq_iff]
      constructor <;> linarith
    rw [hf, if_pos (by linarith)]
  · push_neg at hy
    have hf : ⌊y⌋ = n - 1 := by
      rw [Int.floor_eq_iff]
      push_cast
      constructor <;> linarith
    rw [hf]
    push_cast
    rw [if_neg (by linarith), if_pos (by linarith)]
    ring

/-- The result of `roundEven` is an integer nearest to its argument. -/
theorem roundEven_nearest (y : ℚ) (n : ℤ) : |y - roundEven y| ≤ |y - n| := by
  by_contra h
  push_neg at h
  have h1 := roundEven_sub_le y
  have h2 : |y - n| < 1 / 2 := lt_of_lt_of_le h h1
  rw [roundEven_eq_of_near y n h2] at h
  exact lt_irrefl _ h

theorem roundEven_intCast (n : ℤ) : roundEven (n : ℚ) = n :=
  roundEven_eq_of_near _ n (by simp)

theorem ulp_pos (x : ℚ) : 0 < ulp x := by
  unfold ulp
  positivity

theorem expo_ge (x : ℚ) : -1022 ≤ expo x := le_max_right _ _

/-- A double differs from the real result it stands for by at most half of `ulp`. -/
theorem nearest_sub_le (x : ℚ) : |x - nearest x| ≤ ulp x / 2 := by
  have hu := ulp_pos x
  have h := roundEven_sub_le (x / ulp x)
  have e : x - nearest x = (x / ulp x - roundEven (x / ulp x)) * ulp x := by
    unfold nearest
    field_simp
    ring
  rw [e, abs_mul, abs_of_pos hu]
  calc |x / ulp x - ↑(roundEven (x / ulp x))| * ulp x ≤ 1 / 2 * ulp x :=
        mul_le_mul_of_nonneg_right h (le_of_lt hu)
    _ = ulp x / 2 := by ring

/-- No multiple of `ulp x` is nearer to `x` than `nearest x`. -/
theorem nearest_le_multiple (x : ℚ) (n : ℤ) : |x - nearest x| ≤ |x - n * ulp x| := by
  have hu := ulp_pos x
  have h := roundEven_nearest (x / ulp x) n
  have e1 : x - nearest x = (x / ulp x - roundEven (x / ulp x)) * ulp x := by
    unfold nearest
    field_simp
    ring
  have e2 : x - n * ulp x = (x / ulp x - n) * ulp x := by
    field_simp
    ring
  rw [e1, e2, abs_mul, abs_mul, abs_of_pos hu]
  exact mul_le_mul_of_nonneg_right h (le_of_lt hu)


theorem expo_eq_log (x : ℚ) (h : -1022 ≤ Int.log 2 |x|) : expo x = Int.log 2 |x| :=
  max_eq_left h

theorem expo_eq_of_bounds (x : ℚ) (e : ℤ) (he : -1022 ≤ e) (hlo : (2 : ℚ) ^ e ≤ x)
    (hhi : x < (2 : ℚ) ^ (e + 1)) : expo x = e := by
  have hx : 0 < x := lt_of_lt_of_le (by positivity) hlo
  have h1 : e ≤ Int.log 2 x := (Int.zpow_le_iff_le_log (by norm_num) hx).1 (by exact_mod_cast hlo)
  have h2 : Int.log 2 x < e + 1 :=
    (Int.lt_zpow_iff_log_lt (by norm_num) hx).1 (by exact_mod_cast hhi)
  have h3 : Int.log 2 x = e := by omega
  unfold expo
  rw [abs_of_pos hx, h3]
  exact max_eq_left he

/-- The double nearest to a positive number whose binade and nearest multiple are known. -/
theorem nearest_eq (x : ℚ) (e n : ℤ) (he : -1022 ≤ e) (hlo : (2 : ℚ) ^ e ≤ x)
    (hhi : x < (2 : ℚ) ^ (e + 1)) (hn : |x / (2 : ℚ) ^ (e - 52) - n| < 1 / 2) :
    nearest x = n * (2 : ℚ) ^ (e - 52) := by
  unfold nearest ulp
  rw [expo_eq_of_bounds x e he hlo hhi, roundEven_eq_of_near _ n hn]

theorem round_eq (x : ℚ) (e n : ℤ) (r : ℚ) (he : -1022 ≤ e) (hlo : (2 : ℚ) ^ e ≤ x)
    (hhi : x < (2 : ℚ) ^ (e + 1)) (hr : r = n * (2 : ℚ) ^ (e - 52))
    (hn : |x / (2 : ℚ) ^ (e - 52) - n| < 1 / 2) (hfin : |r| < 2 ^ 1024) :
    round x = Dbl.fin r := by
  unfold round
  rw [nearest_eq x e n he hlo hhi hn, ← hr, if_neg (not_le.2 hfin)]

theorem nearest_zero : nearest 0 = 0 := by
  unfold nearest
  have h : roundEven ((0 : ℚ) / ulp 0) = 0 := by
    rw [zero_div]
    exact_mod_cast roundEven_intCast 0
  rw [h]
  simp

/-- No double is nearer to a number `x ≥ 0` than `nearest x`: a double is a number
`m * 2 ^ k` with `|m| ≤ 2 ^ 53` and `k ≥ -1074`. -/
theorem nearest_le_rep (x : ℚ) (hx : 0 ≤ x) (m k : ℤ) (hk : -1074 ≤ k) (hm : |m| ≤ 2 ^ 53) :
    |x - nearest x| ≤ |x - m * (2 : ℚ) ^ k| := by
  rcases eq_or_lt_of_le hx with h0 | hpos
  · rw [← h0, nearest_zero]
    simp
  by_cases hf : (m : ℚ) * (2 : ℚ) ^ k ≤ 0
  · have h := nearest_le_multiple x 0
    simp only [Int.cast_zero, zero_mul, sub_zero] at h
    calc |x - nearest x| ≤ |x| := h
      _ = x := abs_of_pos hpos
      _ ≤ x - m * (2 : ℚ) ^ k := by linarith
      _ ≤ |x - m * (2 : ℚ) ^ k| := le_abs_self _
  push_neg at hf
  by_cases hke : expo x - 52 ≤ k
  · obtain ⟨j, hj⟩ : ∃ j : ℕ, k = expo x - 52 + j := ⟨(k - (expo x - 52)).toNat, by omega⟩
    have e : (m : ℚ) * (2 : ℚ) ^ k = ((m * 2 ^ j : ℤ) : ℚ) * ulp x := by
      unfold ulp
      rw [hj, zpow_add₀ (two_ne_zero), zpow_natCast]
      push_cast
      ring
    rw [e]
    exact nearest_le_multiple x _
  · push_neg at hke
    have hlog : expo x = Int.log 2 |x| := by
      unfold expo
      apply max_eq_left
      by_contra hc
      have h1022 : expo x = -1022 := max_eq_right (le_of_lt (not_le.1 hc))
      omega
    have h2e : (2 : ℚ) ^ expo x ≤ x := by
      rw [hlog, abs_of_pos hpos]
      exact_mod_cast Int.zpow_log_le_self (b := 2) (r := x) (by norm_num) hpos
    have hm' : (m : ℚ) ≤ 2 ^ 53 := by
      have : m ≤ 2 ^ 53 := le_trans (le_abs_self m) hm
      exact_mod_cast this
    have hfle : (m : ℚ) * (2 : ℚ) ^ k ≤ (2 : ℚ) ^ expo x := by
      calc (m : ℚ) * (2 : ℚ) ^ k ≤ 2 ^ 53 * (2 : ℚ) ^ k :=
            mul_le_mul_of_nonneg_right hm' (by positivity)
        _ = (2 : ℚ) ^ (53 + k) := by
            rw [zpow_add₀ (two_ne_zero)]
            norm_num
        _ ≤ (2 : ℚ) ^ expo x := zpow_le_zpow_right₀ (by norm_num) (by omega)
    have hmul : (2 : ℚ) ^ expo x = (((2 : ℤ) ^ 52 : ℤ) : ℚ) * ulp x := by
      unfold ulp
      rw [zpow_sub₀ (two_ne_zero)]
      push_cast
      field_simp
      norm_num
      ring
    have h := nearest_le_multiple x ((2 : ℤ) ^ 52)
    rw [← hmul] at h
    calc |x - nearest x| ≤ |x - (2 : ℚ) ^ expo x| := h
      _ = x - (2 : ℚ) ^ expo x := abs_of_nonneg (by linarith)
      _ ≤ x - m * (2 : ℚ) ^ k := by linarith
      _ ≤ |x - m * (2 : ℚ) ^ k| := le_abs_self _

theorem roundEven_bounds (y : ℚ) (h0 : 0 ≤ y) (h1 : y < 2 ^ 53) :
    0 ≤ roundEven y ∧ roundEven y ≤ 2 ^ 53 := by
  have h := roundEven_sub_le y
  rw [abs_le] at h
  constructor
  · have : (-1 : ℚ) < roundEven y := by linarith
    have : (-1 : ℤ) < roundEven y := by exact_mod_cast this
    omega
  · have : (roundEven y : ℚ) < 2 ^ 53 + 1 := by linarith
    have : roundEven y < 2 ^ 53 + 1 := by exact_mod_cast this
    omega

theorem div_ulp_lt (x : ℚ) (hx : 0 ≤ x) : x / ulp x < 2 ^ 53 := by
  have hu := ulp_pos x
  rw [div_lt_iff₀ hu]
  have h1 : x < (2 : ℚ) ^ (Int.log 2 x + 1) := by
    exact_mod_cast Int.lt_zpow_succ_log_self (b := 2) (by norm_num) x
  have h2 : Int.log 2 x ≤ expo x := by
    unfold expo
    rw [abs_of_nonneg hx]
    exact le_max_left _ _
  calc x < (2 : ℚ) ^ (Int.log 2 x + 1) := h1
    _ ≤ (2 : ℚ) ^ (expo x + 1) := zpow_le_zpow_right₀ (by norm_num) (by omega)
    _ = 2 ^ 53 * ulp x := by
        unfold ulp
        rw [show expo x + 1 = 53 + (expo x - 52) by ring, zpow_add₀ (two_ne_zero)]
        norm_num

/-- The rounding of a number `x ≥ 0` is a double. -/
theorem nearest_rep (x : ℚ) (hx : 0 ≤ x) :
    ∃ m k : ℤ, -1074 ≤ k ∧ |m| ≤ 2 ^ 53 ∧ 0 ≤ m ∧ nearest x = m * (2 : ℚ) ^ k := by
  have hb := roundEven_bounds (x / ulp x) (div_nonneg hx (le_of_lt (ulp_pos x))) (div_ulp_lt x hx)
  refine ⟨roundEven (x / ulp x), expo x - 52, ?_, ?_, hb.1, rfl⟩
  · have := expo_ge x
    omega
  · rw [abs_of_nonneg hb.1]
    exact hb.2

theorem nearest_nonneg (x : ℚ) (hx : 0 ≤ x) : 0 ≤ nearest x := by
  obtain ⟨m, k, _, _, hm, h⟩ := nearest_rep x hx
  rw [h]
  have : (0 : ℚ) ≤ m := by exact_mod_cast hm
  positivity

/-- Rounding is monotone. -/
theorem nearest_mono (x y : ℚ) (hx : 0 ≤ x) (hxy : x ≤ y) : nearest x ≤ nearest y := by
  by_contra hc
  push_neg at hc
  have hy : 0 ≤ y := le_trans hx hxy
  obtain ⟨mx, kx, hkx, hmx, _, ex⟩ := nearest_rep x hx
  obtain ⟨my, ky, hky, hmy, _, ey⟩ := nearest_rep y hy
  have h1 := nearest_le_rep x hx my ky hky hmy
  have h2 := nearest_le_rep y hy mx kx hkx hmx
  rw [← ey] at h1
  rw [← ex] at h2
  have hmid1 : nearest x + nearest y ≤ 2 * x := by
    by_contra hlt
    push_neg at hlt
    have : |x - nearest y| < |x - nearest x| := by
      rw [abs_lt]
      constructor
      · rcases abs_cases (x - nearest x) with ⟨e, _⟩ | ⟨e, _⟩ <;> linarith
      · rcases abs_cases (x - nearest x) with ⟨e, _⟩ | ⟨e, _⟩ <;> linarith
    exact absurd h1 (not_le.2 this)
  have hmid2 : 2 * y ≤ nearest x + nearest y := by
    by_contra hlt
    push_neg at hlt
    have : |y - nearest x| < |y - nearest y| := by
      rw [abs_lt]
      constructor
      · rcases abs_cases (y - nearest y) with ⟨e, _⟩ | ⟨e, _⟩ <;> linarith
      · rcases abs_cases (y - nearest y) with ⟨e, _⟩ | ⟨e, _⟩ <;> linarith
    exact absurd h2 (not_le.2 this)
  have hxy' : x = y := le_antisymm hxy (by linarith)
  rw [hxy'] at hc
  exact lt_irrefl _ hc

/-- A double is rounded to itself. -/
theorem nearest_of_rep (m k : ℤ) (hk : -1074 ≤ k) (hm : |m| ≤ 2 ^ 53)
    (h0 : 0 ≤ (m : ℚ) * (2 : ℚ) ^ k) : nearest (m * (2 : ℚ) ^ k) = m * (2 : ℚ) ^ k := by
  have h := nearest_le_rep _ h0 m k hk hm
  rw [sub_self, abs_zero] at h
  have h' := abs_nonpos_iff.1 h
  linarith

theorem nearest_natCast (n : ℕ) (h : n ≤ 2 ^ 53) : nearest (n : ℚ) = n := by
  have e : (n : ℚ) = ((n : ℤ) : ℚ) * (2 : ℚ) ^ (0 : ℤ) := by simp
  have hm : |(n : ℤ)| ≤ 2 ^ 53 := by
    rw [abs_of_nonneg (Int.natCast_nonneg n)]
    exact_mod_cast h
  have := nearest_of_rep (n : ℤ) 0 (by norm_num) hm (by positivity)
  rw [← e] at this
  exact this

/-- Between 0 and 1 the rounding error is at most `2 ^ (-53)`. -/
theorem nearest_sub_le_of_le_one (x : ℚ) (h0 : 0 ≤ x) (h1 : x ≤ 1) :
    |x - nearest x| ≤ 1 / 2 ^ 53 := by
  have hlog : Int.log 2 |x| ≤ 0 := by
    rw [abs_of_nonneg h0]
    rcases eq_or_lt_of_le h0 with e | hpos
    · rw [← e, Int.log_zero_right]
    · have := Int.log_mono_right (b := 2) hpos h1
      rwa [Int.log_one_right] at this
  have hexpo : expo x ≤ 0 := max_le hlog (by norm_num)
  have hulp : ulp x ≤ 1 / 2 ^ 52 := by
    unfold ulp
    calc (2 : ℚ) ^ (expo x - 52) ≤ (2 : ℚ) ^ (-52 : ℤ) :=
          zpow_le_zpow_right₀ (by norm_num) (by omega)
      _ = 1 / 2 ^ 52 := by norm_num
  have h := nearest_sub_le x
  have h2 : ulp x / 2 ≤ 1 / 2 ^ 53 := by
    have : (1 : ℚ) / 2 ^ 53 = 1 / 2 ^ 52 / 2 := by norm_num
    rw [this]
    linarith
  exact le_trans h h2

/-- In the range of the normal doubles the rounding error is at most `2 ^ (-53)` of the
number. -/
theorem nearest_sub_le_rel (x : ℚ) (h : (2 : ℚ) ^ (-1022 : ℤ) ≤ x) :
    |x - nearest x| ≤ x / 2 ^ 53 := by
  have hpos : 0 < x := lt_of_lt_of_le (by positivity) h
  have hlog : -1022 ≤ Int.log 2 x :=
    (Int.zpow_le_iff_le_log (by norm_num) hpos).1 (by exact_mod_cast h)
  have hexpo : expo x = Int.log 2 x := by
    unfold expo
    rw [abs_of_pos hpos]
    exact max_eq_left hlog
  have h2e : (2 : ℚ) ^ Int.log 2 x ≤ x := by
    exact_mod_cast Int.zpow_log_le_self (b := 2) (r := x) (by norm_num) hpos
  have hulp : ulp x ≤ x / 2 ^ 52 := by
    unfold ulp
    rw [hexpo, zpow_sub₀ (two_ne_zero)]
    have : (2 : ℚ) ^ (52 : ℤ) = 2 ^ 52 := by norm_num
    rw [this]
    exact div_le_div_of_nonneg_right h2e (by positivity)
  have h1 := nearest_sub_le x
  have h3 : ulp x / 2 ≤ x / 2 ^ 53 := by
    have : x / 2 ^ 53 = x / 2 ^ 52 / 2 := by
      rw [div_div]
      norm_num
    rw [this]
    linarith
  exact le_trans h1 h3

/-- A result between 0 and `2 ^ 64` is rounded to a finite double. -/
theorem round_of_le (x : ℚ) (h0 : 0 ≤ x) (h1 : x ≤ 2 ^ 64) : round x = Dbl.fin (nearest x) := by
  have hb : nearest x ≤ 2 ^ 64 := by
    have hm := nearest_mono x (2 ^ 64) h0 h1
    have hr := nearest_of_rep 1 64 (by norm_num) (by norm_num) (by positivity)
    have e : ((1 : ℤ) : ℚ) * (2 : ℚ) ^ (64 : ℤ) = 2 ^ 64 := by
      rw [Int.cast_one, one_mul, zpow_ofNat]
    rw [e] at hr
    exact le_of_le_of_eq hm hr
  have hn := nearest_nonneg x h0
  have hlt : |nearest x| < 2 ^ 1024 := by
    rw [abs_of_nonneg hn]
    calc nearest x ≤ 2 ^ 64 := hb
      _ < 2 ^ 1024 := pow_lt_pow_right₀ (by norm_num) (by norm_num)
  unfold round
  rw [if_neg (not_le.2 hlt)]

end F64

theorem epsilon64_eq : EPSILON64 = Dbl.fin eps64 := by
  unfold EPSILON64 eps64
  apply F64.round_eq _ (-14) 7378697629483821
  · norm_num
  · norm_num
  · norm_num
  · norm_num
  · norm_num [abs_lt]
  · norm_num [abs_lt]

theorem nearest_eps64 : F64.nearest eps64 = eps64 := by
  have h := F64.nearest_of_rep 7378697629483821 (-66) (by norm_num) (by norm_num) (by positivity)
  have e : ((7378697629483821 : ℤ) : ℚ) * (2 : ℚ) ^ (-66 : ℤ) = eps64 := by
    unfold eps64
    norm_num
  rwa [e] at h

theorem nearest_two : F64.nearest 2 = 2 := by
  have := F64.nearest_natCast 2 (by norm_num)
  simpa using this

theorem ofNat64_eq (n : Nat) (h : n ≤ 2 ^ 53) : Dbl.ofNat64 n = Dbl.fin (n : ℚ) := by
  unfold Dbl.ofNat64
  have h1 : (n : ℚ) ≤ 2 ^ 64 := by
    have : (n : ℚ) ≤ 2 ^ 53 := by exact_mod_cast h
    exact le_trans this (by norm_num)
  rw [F64.round_of_le (n : ℚ) (Nat.cast_nonneg n) h1, F64.nearest_natCast n h]

/-- The sum `p + .0001` for a probability `p`: a finite double between the constant and 2. -/
theorem add64_eps (p : ℚ) (h0 : 0 ≤ p) (h1 : p ≤ 1) :
    Dbl.add64 (Dbl.fin p) EPSILON64 = Dbl.fin (F64.nearest (p + eps64))
      ∧ eps64 ≤ F64.nearest (p + eps64) ∧ F64.nearest (p + eps64) ≤ 2 := by
  have he0 : 0 < eps64 := by unfold eps64; positivity
  have he1 : eps64 ≤ 1 := by unfold eps64; norm_num
  have hlo : eps64 ≤ F64.nearest (p + eps64) := by
    have := F64.nearest_mono eps64 (p + eps64) (le_of_lt he0) (by linarith)
    rwa [nearest_eps64] at this
  have hhi : F64.nearest (p + eps64) ≤ 2 := by
    have := F64.nearest_mono (p + eps64) 2 (by linarith) (by linarith)
    rwa [nearest_two] at this
  refine ⟨?_, hlo, hhi⟩
  rw [epsilon64_eq]
  show F64.round (p + eps64) = _
  apply F64.round_of_le _ (by linarith)
  calc p + eps64 ≤ 2 := by linarith
    _ ≤ 2 ^ 64 := by norm_num

/-- The ratio of two probabilities in binary64: three roundings. -/
theorem ratio64_fin (p q : ℚ) (hp0 : 0 ≤ p) (hp1 : p ≤ 1) (hq0 : 0 ≤ q) (hq1 : q ≤ 1) :
    ratio64 (Dbl.fin p) (Dbl.fin q)
      = Dbl.fin (F64.nearest (F64.nearest (p + eps64) / F64.nearest (q + eps64))) := by
  obtain ⟨ha, ha0, ha1⟩ := add64_eps p hp0 hp1
  obtain ⟨hb, hb0, hb1⟩ := add64_eps q hq0 hq1
  have he0 : 0 < eps64 := by unfold eps64; positivity
  have hbpos : 0 < F64.nearest (q + eps64) := lt_of_lt_of_le he0 hb0
  have hapos : 0 < F64.nearest (p + eps64) := lt_of_lt_of_le he0 ha0
  unfold ratio64
  rw [ha, hb]
  show (if F64.nearest (q + eps64) = 0 then Dbl.nonfin
    else F64.round (F64.nearest (p + eps64) / F64.nearest (q + eps64))) = _
  rw [if_neg (ne_of_gt hbpos)]
  apply F64.round_of_le _ (le_of_lt (div_pos hapos hbpos))
  have h1 : F64.nearest (p + eps64) / F64.nearest (q + eps64) ≤ 2 / eps64 :=
    div_le_div₀ (by norm_num) ha1 he0 hb0
  have h2 : (2 : ℚ) / eps64 ≤ 2 ^ 15 := by
    unfold eps64
    norm_num
  calc F64.nearest (p + eps64) / F64.nearest (q + eps64) ≤ 2 ^ 15 := le_trans h1 h2
    _ ≤ 2 ^ 64 := by norm_num

/-! ## The loops in binary64 -/

theorem ratio_step64_reads (getLabel : TermID → String) (st : RankState) (t : TermID) :
    ratio_step64 getLabel st t
      = RankState.mk (st.m1.index t (Dbl.fin 0)) (st.m2.index t (Dbl.fin 0))
          (st.out ++ [FeatureScore.mk t
            (ratio64 (st.m1.getD t (Dbl.fin 0)) (st.m2.getD t (Dbl.fin 0))) (getLabel t)]) := by
  unfold ratio_step64
  simp only [UMap.getD_index]

/-- The lines of the output loop in binary64: one per term of the list, each with the ratio
of the values that the models held before the loop. -/
theorem foldl_ratio_step64_out (getLabel : TermID → String) (ts : List TermID) (st : RankState) :
    (ts.foldl (ratio_step64 getLabel) st).out
      = st.out ++ ts.map (fun t =>
          ⟨t, ratio64 (st.m1.getD t (Dbl.fin 0)) (st.m2.getD t (Dbl.fin 0)), getLabel t⟩) := by
  induction ts generalizing st with
  | nil => simp
  | cons t ts ih =>
    rw [List.foldl_cons, ih, ratio_step64_reads]
    simp only [UMap.getD_index, List.map_cons, List.append_assoc, List.singleton_append]

theorem compare_pair64_out (getLabel : TermID → String) (m1 m2 : UMap TermID Dbl) :
    (compare_pair64 getLabel m1 m2).out
      = (term_union m1 m2).map (fun t =>
          ⟨t, ratio64 (m1.getD t (Dbl.fin 0)) (m2.getD t (Dbl.fin 0)), getLabel t⟩) := by
  unfold compare_pair64
  rw [foldl_ratio_step64_out]
  simp

theorem mem_compare_pair64_out (getLabel : TermID → String) (m1 m2 : UMap TermID Dbl)
    (t : TermID) (ht : t ∈ m1.keys ∨ t ∈ m2.keys) :
    ⟨t, ratio64 (m1.getD t (Dbl.fin 0)) (m2.getD t (Dbl.fin 0)), getLabel t⟩
      ∈ (compare_pair64 getLabel m1 m2).out := by
  rw [compare_pair64_out]
  exact List.mem_map.2 ⟨t, (mem_term_union m1 m2 t).2 ht, rfl⟩

theorem smooth_step64_eq (label : String) (total : Nat) (sms : UMap String (UMap TermID Dbl))
    (c : TermID × Nat) :
    smooth_step64 label total sms c
      = sms.set label
          ((sms.getD label []).set c.1 (Dbl.div64 (Dbl.ofNat64 c.2) (Dbl.ofNat64 total))) := by
  unfold smooth_step64
  simp only [UMap.set_index, UMap.getD_index]

theorem foldl_smooth_step64_cons (label : String) (total : Nat) (lm : UMap TermID Nat)
    (c : TermID × Nat) (sms : UMap String (UMap TermID Dbl)) :
    (c :: lm).foldl (smooth_step64 label total) sms
      = sms.set label ((c :: lm).foldl
          (fun sm e => sm.set e.1 (Dbl.div64 (Dbl.ofNat64 e.2) (Dbl.ofNat64 total)))
          (sms.getD label [])) := by
  induction lm generalizing sms c with
  | nil => simp [smooth_step64_eq]
  | cons c' lm ih =>
    rw [List.foldl_cons, ih, smooth_step64_eq]
    simp [UMap.getD, UMap.find?_set_self, UMap.set_set]

theorem foldl_set_fresh64 (total : Nat) (lm : UMap TermID Nat) (sm : UMap TermID Dbl)
    (hwf : lm.WF) (hfresh : ∀ k ∈ lm.keys, k ∉ sm.keys) :
    lm.foldl (fun sm e => sm.set e.1 (Dbl.div64 (Dbl.ofNat64 e.2) (Dbl.ofNat64 total))) sm
      = sm ++ smoothed_entries64 total lm := by
  induction lm generalizing sm with
  | nil => simp [smoothed_entries64]
  | cons c lm ih =>
    have hwf' : UMap.WF lm := by
      unfold UMap.WF UMap.keys at *
      exact (List.nodup_cons.1 hwf).2
    have hc : c.1 ∉ UMap.keys lm := by
      unfold UMap.WF UMap.keys at *
      exact (List.nodup_cons.1 hwf).1
    have hcsm : c.1 ∉ UMap.keys sm := hfresh c.1 (by simp [UMap.keys])
    rw [List.foldl_cons, UMap.set_of_not_mem sm c.1 _ hcsm, ih _ hwf']
    · simp [smoothed_entries64]
    · intro k hk hk'
      simp only [UMap.keys, List.map_append, List.map_cons, List.map_nil, List.mem_append,
        List.mem_singleton] at hk'
      rcases hk' with hk' | hk'
      · exact hfresh k (by
          simp only [UMap.keys, List.map_cons, List.mem_cons]
          exact Or.inr hk) hk'
      · exact hc (hk' ▸ hk)

/-- The smoothing in binary64 of a class that has no entry yet in `smoothed_models`. -/
theorem smooth_class64_eq (sms : UMap String (UMap TermID Dbl)) (label : String)
    (lm : UMap TermID Nat) (hfresh : sms.find? label = none) (hwf : lm.WF) :
    smooth_class64 sms label lm
      = if lm = [] then sms else sms.set label (smoothed_entries64 (total_count lm) lm) := by
  unfold smooth_class64
  cases hlm : lm with
  | nil => simp
  | cons c lm' =>
    rw [foldl_smooth_step64_cons, ← hlm]
    have h0 : sms.getD label [] = [] := by
      unfold UMap.getD
      rw [hfresh]
      rfl
    rw [h0, foldl_set_fresh64 _ lm [] hwf (by simp [UMap.keys])]
    simp [hlm]

/-- The double stored for a count and a total that a double holds exactly, from the binade
and the nearest multiple of the quotient. -/
theorem div64_ofNat_eq (c total : Nat) (e n : ℤ) (r : ℚ) (hc : c ≤ 2 ^ 53)
    (ht : total ≤ 2 ^ 53) (ht0 : total ≠ 0) (he : -1022 ≤ e)
    (hlo : (2 : ℚ) ^ e ≤ (c : ℚ) / (total : ℚ)) (hhi : (c : ℚ) / (total : ℚ) < (2 : ℚ) ^ (e + 1))
    (hr : r = n * (2 : ℚ) ^ (e - 52))
    (hn : |(c : ℚ) / (total : ℚ) / (2 : ℚ) ^ (e - 52) - n| < 1 / 2) (hfin : |r| < 2 ^ 1024) :
    Dbl.div64 (Dbl.ofNat64 c) (Dbl.ofNat64 total) = Dbl.fin r := by
  rw [ofNat64_eq c hc, ofNat64_eq total ht]
  have h0 : (total : ℚ) ≠ 0 := by exact_mod_cast ht0
  show (if (total : ℚ) = 0 then Dbl.nonfin else F64.round ((c : ℚ) / (total : ℚ))) = _
  rw [if_neg h0]
  exact F64.round_eq _ e n r he hlo hhi hr hn hfin

theorem add64_eps_eq (p : ℚ) (e n : ℤ) (r : ℚ) (he : -1022 ≤ e)
    (hlo : (2 : ℚ) ^ e ≤ p + eps64) (hhi : p + eps64 < (2 : ℚ) ^ (e + 1))
    (hr : r = n * (2 : ℚ) ^ (e - 52))
    (hn : |(p + eps64) / (2 : ℚ) ^ (e - 52) - n| < 1 / 2) (hfin : |r| < 2 ^ 1024) :
    Dbl.add64 (Dbl.fin p) EPSILON64 = Dbl.fin r := by
  rw [epsilon64_eq]
  exact F64.round_eq _ e n r he hlo hhi hr hn hfin

theorem div64_fin_eq (a b : ℚ) (e n : ℤ) (r : ℚ) (hb : b ≠ 0) (he : -1022 ≤ e)
    (hlo : (2 : ℚ) ^ e ≤ a / b) (hhi : a / b < (2 : ℚ) ^ (e + 1))
    (hr : r = n * (2 : ℚ) ^ (e - 52))
    (hn : |a / b / (2 : ℚ) ^ (e - 52) - n| < 1 / 2) (hfin : |r| < 2 ^ 1024) :
    Dbl.div64 (Dbl.fin a) (Dbl.fin b) = Dbl.fin r := by
  show (if b = 0 then Dbl.nonfin else F64.round (a / b)) = _
  rw [if_neg hb]
  exact F64.round_eq _ e n r he hlo hhi hr hn hfin

/-! ## The ratio and the order of the probabilities -/

theorem smooth_soleTerm :
    smooth_class64 [] "chinese" [(0, 1)] = [("chinese", soleTermSmoothed)] := by
  rw [smooth_class64_eq _ _ _ (by decide) (by decide)]
  have ht : total_count [(0, 1)] = 1 := by decide
  have h1 : Dbl.div64 (Dbl.ofNat64 1) (Dbl.ofNat64 1) = Dbl.fin 1 := by
    apply div64_ofNat_eq 1 1 0 4503599627370496 <;> norm_num [abs_lt]
  rw [ht]
  simp only [soleTermSmoothed, smoothed_entries64, List.map_cons, List.map_nil, h1]
  rfl

theorem smooth_twoTerms :
    smooth_class64 [] "english" [(0, 1), (1, 1)] = [("english", twoTermsSmoothed)] := by
  rw [smooth_class64_eq _ _ _ (by decide) (by decide)]
  have ht : total_count [(0, 1), (1, 1)] = 2 := by decide
  have h1 : Dbl.div64 (Dbl.ofNat64 1) (Dbl.ofNat64 2) = Dbl.fin (1 / 2) := by
    apply div64_ofNat_eq 1 2 (-1) 4503599627370496 <;> norm_num [abs_lt]
  rw [ht]
  simp only [twoTermsSmoothed, smoothed_entries64, List.map_cons, List.map_nil, h1]
  rfl

theorem add64_one : Dbl.add64 (Dbl.fin 1) EPSILON64 = Dbl.fin (4504049987333233 / 2 ^ 52) := by
  apply add64_eps_eq _ 0 4504049987333233 <;> norm_num [abs_lt, eps64]

theorem add64_half :
    Dbl.add64 (Dbl.fin (1 / 2)) EPSILON64 = Dbl.fin (4504500347295970 / 2 ^ 53) := by
  apply add64_eps_eq _ (-1) 4504500347295970 <;> norm_num [abs_lt, eps64]

theorem ratio64_one_half :
    ratio64 (Dbl.fin 1) (Dbl.fin (1 / 2)) = Dbl.fin (9006298714923482 / 2 ^ 52) := by
  unfold ratio64
  rw [add64_one, add64_half]
  apply div64_fin_eq _ _ 0 9006298714923482 <;> norm_num [abs_lt]

theorem ratio64_half_one :
    ratio64 (Dbl.fin (1 / 2)) (Dbl.fin 1) = Dbl.fin (4504049942301740 / 2 ^ 53) := by
  unfold ratio64
  rw [add64_one, add64_half]
  apply div64_fin_eq _ _ (-1) 4504049942301740 <;> norm_num [abs_lt]

theorem inverse_ratio64_half_one :
    Dbl.div64 (Dbl.fin 1) (Dbl.fin (4504049942301740 / 2 ^ 53))
      = Dbl.fin (9006298714923481 / 2 ^ 52) := by
  apply div64_fin_eq _ _ 0 9006298714923481 <;> norm_num [abs_lt]

/-- C12 (as stated, refuted): for the smoothed models `{0:1}` and `{0:0.5, 1:0.5}`, which the
smoothing gives for a class with one term and a class with two terms of equal count, the
ratio written for term 0 is 1.9998000399920017 and 1 divided by the ratio of the swapped
pair is 1.9998000399920015: they differ in the last bit. -/
theorem C12_ratio_differs_from_reciprocal :
    (¬ ∀ (getLabel : TermID → String) (A B : UMap TermID Dbl) (t : TermID) (p q : ℚ)
        (r1 r2 : Dbl),
        A.find? t = some (Dbl.fin p) → B.find? t = some (Dbl.fin q) → 0 ≤ p → 0 ≤ q →
        ⟨t, r1, getLabel t⟩ ∈ (compare_pair64 getLabel A B).out →
        ⟨t, r2, getLabel t⟩ ∈ (compare_pair64 getLabel B A).out →
        r1 = Dbl.div64 (Dbl.fin 1) r2)
      ∧ smooth_class64 [] "chinese" [(0, 1)] = [("chinese", soleTermSmoothed)]
      ∧ smooth_class64 [] "english" [(0, 1), (1, 1)] = [("english", twoTermsSmoothed)]
      ∧ (⟨0, Dbl.fin (9006298714923482 / 2 ^ 52), "t0"⟩ : FeatureScore)
          ∈ (compare_pair64 (fun _ => "t0") soleTermSmoothed twoTermsSmoothed).out
      ∧ (⟨0, Dbl.fin (4504049942301740 / 2 ^ 53), "t0"⟩ : FeatureScore)
          ∈ (compare_pair64 (fun _ => "t0") twoTermsSmoothed soleTermSmoothed).out
      ∧ Dbl.div64 (Dbl.fin 1) (Dbl.fin (4504049942301740 / 2 ^ 53))
          = Dbl.fin (9006298714923481 / 2 ^ 52) := by
  have hAB : (⟨0, Dbl.fin (9006298714923482 / 2 ^ 52), "t0"⟩ : FeatureScore)
      ∈ (compare_pair64 (fun _ => "t0") soleTermSmoothed twoTermsSmoothed).out := by
    have h := mem_compare_pair64_out (fun _ => "t0") soleTermSmoothed twoTermsSmoothed 0
      (by decide)
    have e1 : soleTermSmoothed.getD 0 (Dbl.fin 0) = Dbl.fin 1 := rfl
    have e2 : twoTermsSmoothed.getD 0 (Dbl.fin 0) = Dbl.fin (1 / 2) := rfl
    rw [e1, e2, ratio64_one_half] at h
    exact h
  have hBA : (⟨0, Dbl.fin (4504049942301740 / 2 ^ 53), "t0"⟩ : FeatureScore)
      ∈ (compare_pair64 (fun _ => "t0") twoTermsSmoothed soleTermSmoothed).out := by
    have h := mem_compare_pair64_out (fun _ => "t0") twoTermsSmoothed soleTermSmoothed 0
      (by decide)
    have e1 : soleTermSmoothed.getD 0 (Dbl.fin 0) = Dbl.fin 1 := rfl
    have e2 : twoTermsSmoothed.getD 0 (Dbl.fin 0) = Dbl.fin (1 / 2) := rfl
    rw [e1, e2, ratio64_half_one] at h
    exact h
  refine ⟨fun h => ?_, smooth_soleTerm, smooth_twoTerms, hAB, hBA, inverse_ratio64_half_one⟩
  have h1 := h (fun _ => "t0") soleTermSmoothed twoTermsSmoothed 0 1 (1 / 2) _ _ rfl rfl
    (by norm_num) (by norm_num) hAB hBA
  rw [inverse_ratio64_half_one] at h1
  have h2 : (9006298714923482 / 2 ^ 52 : ℚ) = 9006298714923481 / 2 ^ 52 := by
    injection h1
  norm_num at h2

/-- C12 (amended): for two smoothed models and a term that both hold with a probability in
[0, 1], the ratio written for the term in binary64 and the ratio written for it with the two
models swapped are positive finite numbers that are reciprocal up to rounding: their product
differs from 1 by at most `2 ^ (-51)`. -/
theorem C12_ratios_reciprocal_up_to_rounding (getLabel : TermID → String)
    (A B : UMap TermID Dbl) (t : TermID) (p q : ℚ) (hA : A.find? t = some (Dbl.fin p))
    (hB : B.find? t = some (Dbl.fin q)) (hp0 : 0 ≤ p) (hp1 : p ≤ 1) (hq0 : 0 ≤ q)
    (hq1 : q ≤ 1) :
    ∃ r1 r2 : ℚ, ⟨t, Dbl.fin r1, getLabel t⟩ ∈ (compare_pair64 getLabel A B).out
      ∧ ⟨t, Dbl.fin r2, getLabel t⟩ ∈ (compare_pair64 getLabel B A).out
      ∧ 0 < r1 ∧ 0 < r2 ∧ |r1 * r2 - 1| ≤ 1 / 2 ^ 51 := by
  have hkA : t ∈ A.keys := (UMap.find?_isSome_iff A t).1 ⟨_, hA⟩
  have hkB : t ∈ B.keys := (UMap.find?_isSome_iff B t).1 ⟨_, hB⟩
  obtain ⟨_, ha0, ha1⟩ := add64_eps p hp0 hp1
  obtain ⟨_, hb0, hb1⟩ := add64_eps q hq0 hq1
  have he0 : 0 < eps64 := by unfold eps64; positivity
  have hapos : 0 < F64.nearest (p + eps64) := lt_of_lt_of_le he0 ha0
  have hbpos : 0 < F64.nearest (q + eps64) := lt_of_lt_of_le he0 hb0
  have hAB := mem_compare_pair64_out getLabel A B t (Or.inl hkA)
  have hBA := mem_compare_pair64_out getLabel B A t (Or.inl hkB)
  rw [getD_of_find? A t _ hA, getD_of_find? B t _ hB, ratio64_fin p q hp0 hp1 hq0 hq1] at hAB
  rw [getD_of_find? A t _ hA, getD_of_find? B t _ hB, ratio64_fin q p hq0 hq1 hp0 hp1] at hBA
  generalize F64.nearest (p + eps64) = a at *
  generalize F64.nearest (q + eps64) = b at *
  have hsmall : (2 : ℚ) ^ (-1022 : ℤ) ≤ eps64 / 2 := by
    calc (2 : ℚ) ^ (-1022 : ℤ) ≤ (2 : ℚ) ^ (-15 : ℤ) :=
          zpow_le_zpow_right₀ (by norm_num) (by norm_num)
      _ ≤ eps64 / 2 := by
          unfold eps64
          norm_num
  have hx : eps64 / 2 ≤ a / b := div_le_div₀ (le_of_lt hapos) ha0 hbpos hb1
  have hy : eps64 / 2 ≤ b / a := div_le_div₀ (le_of_lt hbpos) hb0 hapos ha1
  have hxpos : 0 < a / b := div_pos hapos hbpos
  have hypos : 0 < b / a := div_pos hbpos hapos
  have hxy : a / b * (b / a) = 1 := by
    field_simp
  have h1 := F64.nearest_sub_le_rel (a / b) (le_trans hsmall hx)
  have h2 := F64.nearest_sub_le_rel (b / a) (le_trans hsmall hy)
  generalize F64.nearest (a / b) = r1 at *
  generalize F64.nearest (b / a) = r2 at *
  generalize a / b = x at *
  generalize b / a = y at *
  rw [abs_le] at h1 h2
  have hd : (0 : ℚ) < 1 / 2 ^ 53 := by positivity
  have hr1 : 0 < r1 := by
    have : x / 2 ^ 53 < x := by
      rw [div_lt_iff₀ (by positivity)]
      nlinarith
    linarith
  have hr2 : 0 < r2 := by
    have : y / 2 ^ 53 < y := by
      rw [div_lt_iff₀ (by positivity)]
      nlinarith
    linarith
  refine ⟨r1, r2, hAB, hBA, hr1, hr2, ?_⟩
  have key : r1 * r2 - 1 = (r1 - x) * (r2 - y) + x * (r2 - y) + y * (r1 - x) := by
    linear_combination hxy
  have b1 : |r1 - x| ≤ x / 2 ^ 53 := by
    rw [abs_le]
    constructor <;> linarith
  have b2 : |r2 - y| ≤ y / 2 ^ 53 := by
    rw [abs_le]
    constructor <;> linarith
  have t1 : |(r1 - x) * (r2 - y)| ≤ 1 / 2 ^ 106 := by
    rw [abs_mul]
    calc |r1 - x| * |r2 - y| ≤ x / 2 ^ 53 * (y / 2 ^ 53) :=
          mul_le_mul b1 b2 (abs_nonneg _) (by positivity)
      _ = x * y / 2 ^ 106 := by ring
      _ = 1 / 2 ^ 106 := by rw [hxy]
  have t2 : |x * (r2 - y)| ≤ 1 / 2 ^ 53 := by
    rw [abs_mul, abs_of_pos hxpos]
    calc x * |r2 - y| ≤ x * (y / 2 ^ 53) := mul_le_mul_of_nonneg_left b2 (le_of_lt hxpos)
      _ = x * y / 2 ^ 53 := by ring
      _ = 1 / 2 ^ 53 := by rw [hxy]
  have t3 : |y * (r1 - x)| ≤ 1 / 2 ^ 53 := by
    rw [abs_mul, abs_of_pos hypos]
    calc y * |r1 - x| ≤ y * (x / 2 ^ 53) := mul_le_mul_of_nonneg_left b1 (le_of_lt hypos)
      _ = x * y / 2 ^ 53 := by ring
      _ = 1 / 2 ^ 53 := by rw [hxy]
  rw [key]
  calc |(r1 - x) * (r2 - y) + x * (r2 - y) + y * (r1 - x)|
      ≤ |(r1 - x) * (r2 - y) + x * (r2 - y)| + |y * (r1 - x)| := abs_add _ _
    _ ≤ |(r1 - x) * (r2 - y)| + |x * (r2 - y)| + |y * (r1 - x)| := by
        linarith [abs_add ((r1 - x) * (r2 - y)) (x * (r2 - y))]
    _ ≤ 1 / 2 ^ 106 + 1 / 2 ^ 53 + 1 / 2 ^ 53 := by linarith
    _ ≤ 1 / 2 ^ 51 := by norm_num

/-- C12, at the smoothed models `{0:1}` and `{0:0.5, 1:0.5}` and the term 0. -/
theorem C12_ratios_reciprocal_up_to_rounding_witness :
    ∃ r1 r2 : ℚ, ⟨0, Dbl.fin r1, "t0"⟩
          ∈ (compare_pair64 (fun _ => "t0") soleTermSmoothed twoTermsSmoothed).out
      ∧ ⟨0, Dbl.fin r2, "t0"⟩
          ∈ (compare_pair64 (fun _ => "t0") twoTermsSmoothed soleTermSmoothed).out
      ∧ 0 < r1 ∧ 0 < r2 ∧ |r1 * r2 - 1| ≤ 1 / 2 ^ 51 :=
  C12_ratios_reciprocal_up_to_rounding (fun _ => "t0") soleTermSmoothed twoTermsSmoothed 0 1
    (1 / 2) rfl rfl (by norm_num) (by norm_num) (by norm_num) (by norm_num)

/-! ## The sum of the stored probabilities -/

/-- The double stored for a count: the count divided by the total as a double, rounded; it is
within `2 ^ (-53)` of the quotient. -/
theorem stored_probability (c total : Nat) (tf : ℚ) (hc : c < 2 ^ 32) (hle : (c : ℚ) ≤ tf)
    (htf : 0 < tf) (ht : Dbl.ofNat64 total = Dbl.fin tf) :
    Dbl.div64 (Dbl.ofNat64 c) (Dbl.ofNat64 total) = Dbl.fin (F64.nearest ((c : ℚ) / tf))
      ∧ |F64.nearest ((c : ℚ) / tf) - (c : ℚ) / tf| ≤ 1 / 2 ^ 53 := by
  have hc53 : c ≤ 2 ^ 53 := le_trans (le_of_lt hc) (by norm_num)
  have h0 : (0 : ℚ) ≤ (c : ℚ) / tf := div_nonneg (Nat.cast_nonneg c) (le_of_lt htf)
  have h1 : (c : ℚ) / tf ≤ 1 := (div_le_one htf).2 hle
  constructor
  · rw [ofNat64_eq c hc53, ht]
    show (if tf = 0 then Dbl.nonfin else F64.round ((c : ℚ) / tf)) = _
    rw [if_neg (ne_of_gt htf)]
    exact F64.round_of_le _ h0 (le_trans h1 (by norm_num))
  · rw [abs_sub_comm]
    exact F64.nearest_sub_le_of_le_one _ h0 h1

theorem foldl_add_smoothed_entries64 (total : Nat) (tf : ℚ) (htf : 0 < tf)
    (ht : Dbl.ofNat64 total = Dbl.fin tf) (l : UMap TermID Nat)
    (hl : ∀ e ∈ l, e.2 < 2 ^ 32 ∧ (e.2 : ℚ) ≤ tf) (a : ℚ) :
    (smoothed_entries64 total l).foldl (fun acc term => Dbl.add acc term.2) (Dbl.fin a)
      = Dbl.fin (a + (l.map (fun e => F64.nearest ((e.2 : ℚ) / tf))).sum) := by
  induction l generalizing a with
  | nil => simp [smoothed_entries64]
  | cons c l ih =>
    have hc := hl c (List.mem_cons_self _ _)
    have hl' : ∀ e ∈ l, e.2 < 2 ^ 32 ∧ (e.2 : ℚ) ≤ tf :=
      fun e he => hl e (List.mem_cons_of_mem _ he)
    have hstep : smoothed_entries64 total (c :: l)
        = (c.1, Dbl.div64 (Dbl.ofNat64 c.2) (Dbl.ofNat64 total)) :: smoothed_entries64 total l := by
      simp [smoothed_entries64]
    have hadd : Dbl.add (Dbl.fin a) (Dbl.fin (F64.nearest ((c.2 : ℚ) / tf)))
        = Dbl.fin (a + F64.nearest ((c.2 : ℚ) / tf)) := rfl
    rw [hstep, List.foldl_cons, (stored_probability c.2 total tf hc.1 hc.2 htf ht).1, hadd,
      ih hl', List.map_cons, List.sum_cons, add_assoc]

theorem sum_stored_near (tf : ℚ) (htf : 0 < tf) (l : UMap TermID Nat)
    (hl : ∀ e ∈ l, e.2 < 2 ^ 32 ∧ (e.2 : ℚ) ≤ tf) :
    |(l.map (fun e => F64.nearest ((e.2 : ℚ) / tf))).sum - (value_sum l : ℚ) / tf|
      ≤ (l.length : ℚ) / 2 ^ 53 := by
  induction l with
  | nil => simp [value_sum]
  | cons c l ih =>
    have hc := hl c (List.mem_cons_self _ _)
    have hl' : ∀ e ∈ l, e.2 < 2 ^ 32 ∧ (e.2 : ℚ) ≤ tf :=
      fun e he => hl e (List.mem_cons_of_mem _ he)
    have h0 : (0 : ℚ) ≤ (c.2 : ℚ) / tf := div_nonneg (Nat.cast_nonneg _) (le_of_lt htf)
    have h1 : (c.2 : ℚ) / tf ≤ 1 := (div_le_one htf).2 hc.2
    have hb := F64.nearest_sub_le_of_le_one _ h0 h1
    rw [abs_sub_comm] at hb
    have hvs : (value_sum (c :: l) : ℚ) = (c.2 : ℚ) + (value_sum l : ℚ) := by
      simp [value_sum]
    have hlen : ((c :: l).length : ℚ) = (l.length : ℚ) + 1 := by
      simp
    have e : (List.map (fun e => F64.nearest ((e.2 : ℚ) / tf)) (c :: l)).sum
          - (value_sum (c :: l) : ℚ) / tf
        = (F64.nearest ((c.2 : ℚ) / tf) - (c.2 : ℚ) / tf)
          + ((l.map (fun e => F64.nearest ((e.2 : ℚ) / tf))).sum - (value_sum l : ℚ) / tf) := by
      rw [List.map_cons, List.sum_cons, hvs]
      ring
    rw [e, hlen]
    have hih := ih hl'
    calc |F64.nearest ((c.2 : ℚ) / tf) - (c.2 : ℚ) / tf
          + ((l.map (fun e => F64.nearest ((e.2 : ℚ) / tf))).sum - (value_sum l : ℚ) / tf)|
        ≤ |F64.nearest ((c.2 : ℚ) / tf) - (c.2 : ℚ) / tf|
          + |(l.map (fun e => F64.nearest ((e.2 : ℚ) / tf))).sum - (value_sum l : ℚ) / tf| :=
          abs_add _ _
      _ ≤ 1 / 2 ^ 53 + (l.length : ℚ) / 2 ^ 53 := add_le_add hb hih
      _ = ((l.length : ℚ) + 1) / 2 ^ 53 := by ring

/-- The total of a class as a double: within `2 ^ (-53)` of the total, relatively. -/
theorem total_as_double (total : Nat) (hpos : 0 < total) (hfit : total < 2 ^ 64) :
    Dbl.ofNat64 total = Dbl.fin (F64.nearest (total : ℚ))
      ∧ |(total : ℚ) - F64.nearest (total : ℚ)| ≤ (total : ℚ) / 2 ^ 53 := by
  have h1 : (1 : ℚ) ≤ (total : ℚ) := by exact_mod_cast hpos
  have h64 : (total : ℚ) ≤ 2 ^ 64 := by exact_mod_cast le_of_lt hfit
  constructor
  · exact F64.round_of_le _ (by linarith) h64
  · apply F64.nearest_sub_le_rel
    calc (2 : ℚ) ^ (-1022 : ℤ) ≤ (2 : ℚ) ^ (0 : ℤ) :=
          zpow_le_zpow_right₀ (by norm_num) (by norm_num)
      _ = 1 := by norm_num
      _ ≤ (total : ℚ) := h1

theorem smooth_scenarioB64 :
    smooth_class64 [] "B" scenarioB
      = [("B", [(1, Dbl.fin (6004799503160661 / 2 ^ 54)),
          (3, Dbl.fin (6004799503160661 / 2 ^ 53))])] := by
  rw [smooth_class64_eq _ _ _ (by decide) (by decide)]
  have ht : total_count scenarioB = 3 := by decide
  have h1 : Dbl.div64 (Dbl.ofNat64 1) (Dbl.ofNat64 3)
      = Dbl.fin (6004799503160661 / 2 ^ 54) := by
    apply div64_ofNat_eq 1 3 (-2) 6004799503160661 <;> norm_num [abs_lt]
  have h2 : Dbl.div64 (Dbl.ofNat64 2) (Dbl.ofNat64 3)
      = Dbl.fin (6004799503160661 / 2 ^ 53) := by
    apply div64_ofNat_eq 2 3 (-1) 6004799503160661 <;> norm_num [abs_lt]
  rw [ht]
  simp only [scenarioB, smoothed_entries64, List.map_cons, List.map_nil, h1, h2]
  rfl

/-- C7 (as stated, refuted): the language model `{1:1, 3:2}` of the scenario is smoothed in
binary64 to the doubles nearest to 1/3 and 2/3, `6004799503160661 / 2 ^ 54` and
`6004799503160661 / 2 ^ 53`, and their sum in rational arithmetic is `1 - 2 ^ (-54)`,
not 1. -/
theorem C7_stored_sum_below_one :
    (¬ ∀ (sms : UMap String (UMap TermID Dbl)) (label : String) (lm : UMap TermID Nat),
        sms.find? label = none → ValidCounts lm → 0 < value_sum lm →
        value_sum lm < SIZE_RANGE →
        ∃ sm, (smooth_class64 sms label lm).find? label = some sm ∧ prob_sum sm = Dbl.fin 1)
      ∧ smooth_class64 [] "B" scenarioB
          = [("B", [(1, Dbl.fin (6004799503160661 / 2 ^ 54)),
              (3, Dbl.fin (6004799503160661 / 2 ^ 53))])]
      ∧ prob_sum [(1, Dbl.fin (6004799503160661 / 2 ^ 54)),
            (3, Dbl.fin (6004799503160661 / 2 ^ 53))]
          = Dbl.fin (1 - 1 / 2 ^ 54) := by
  have hsum : prob_sum [(1, Dbl.fin (6004799503160661 / 2 ^ 54)),
        (3, Dbl.fin (6004799503160661 / 2 ^ 53))]
      = Dbl.fin (1 - 1 / 2 ^ 54) := by
    simp only [prob_sum, List.foldl_cons, List.foldl_nil, Dbl.add]
    norm_num
  refine ⟨fun h => ?_, smooth_scenarioB64, hsum⟩
  obtain ⟨sm, hsm, hone⟩ := h [] "B" scenarioB (by decide) (by decide) (by decide) (by decide)
  rw [smooth_scenarioB64] at hsm
  have hsm' : sm = [(1, Dbl.fin (6004799503160661 / 2 ^ 54)),
      (3, Dbl.fin (6004799503160661 / 2 ^ 53))] := by
    simp only [UMap.find?, if_true, Option.some.injEq] at hsm
    exact hsm.symm
  rw [hsm', hsum] at hone
  have h2 : (1 - 1 / 2 ^ 54 : ℚ) = 1 := by
    injection hone
  norm_num at h2

/-- C7 (amended): the smoothing in binary64 of a language model whose counts add up to a
positive total (one that `size_t` holds) stores a smoothed model with the keys of the
language model whose probabilities add up, in rational arithmetic, to a number that differs
from 1 by at most `(n + 2) / 2 ^ 53`, `n` the number of terms. -/
theorem C7_probabilities_sum_near_one (sms : UMap String (UMap TermID Dbl)) (label : String)
    (lm : UMap TermID Nat) (hfresh : sms.find? label = none) (hvalid : ValidCounts lm)
    (hpos : 0 < value_sum lm) (hfit : value_sum lm < SIZE_RANGE) :
    ∃ (sm : UMap TermID Dbl) (s : ℚ), (smooth_class64 sms label lm).find? label = some sm
      ∧ sm.keys = lm.keys ∧ prob_sum sm = Dbl.fin s
      ∧ |s - 1| ≤ ((lm.length : ℚ) + 2) / 2 ^ 53 := by
  have hne : lm ≠ [] := by
    rintro rfl
    simp [value_sum] at hpos
  obtain ⟨ht, hrel⟩ := total_as_double (value_sum lm) hpos hfit
  generalize htf : F64.nearest (value_sum lm : ℚ) = tf at ht hrel
  have hT1 : (1 : ℚ) ≤ (value_sum lm : ℚ) := by exact_mod_cast hpos
  rw [abs_le] at hrel
  have hd : (value_sum lm : ℚ) / 2 ^ 53 ≤ (value_sum lm : ℚ) / 2 := by
    apply div_le_div_of_nonneg_left (by linarith) (by norm_num) (by norm_num)
  have htfpos : 0 < tf := by linarith
  have hl : ∀ e ∈ lm, e.2 < 2 ^ 32 ∧ (e.2 : ℚ) ≤ tf := by
    intro e he
    have h32 : e.2 < 2 ^ 32 := hvalid.2 e he
    refine ⟨h32, ?_⟩
    have hle : e.2 ≤ value_sum lm :=
      List.single_le_sum (fun _ _ => Nat.zero_le _) _ (List.mem_map.2 ⟨e, he, rfl⟩)
    have hmono := F64.nearest_mono (e.2 : ℚ) (value_sum lm : ℚ) (Nat.cast_nonneg _)
      (by exact_mod_cast hle)
    rw [F64.nearest_natCast e.2 (le_trans (le_of_lt h32) (by norm_num)), htf] at hmono
    exact hmono
  rw [smooth_class64_eq sms label lm hfresh hvalid.1, if_neg hne, total_count_eq lm hfit]
  refine ⟨_, _, UMap.find?_set_self _ _ _, ?_,
    foldl_add_smoothed_entries64 (value_sum lm) tf htfpos ht lm hl 0, ?_⟩
  · simp [smoothed_entries64, UMap.keys]
  · have h1 := sum_stored_near tf htfpos lm hl
    have h2 : |(value_sum lm : ℚ) / tf - 1| ≤ 2 / 2 ^ 53 := by
      have e : (value_sum lm : ℚ) / tf - 1 = ((value_sum lm : ℚ) - tf) / tf := by
        field_simp
      rw [e, abs_div, abs_of_pos htfpos, div_le_iff₀ htfpos]
      have h3 : |(value_sum lm : ℚ) - tf| ≤ (value_sum lm : ℚ) / 2 ^ 53 := by
        rw [abs_le]
        exact hrel
      have h4 : (value_sum lm : ℚ) / 2 ^ 53 ≤ 2 / 2 ^ 53 * tf := by
        have : (value_sum lm : ℚ) ≤ 2 * tf := by linarith
        calc (value_sum lm : ℚ) / 2 ^ 53 ≤ 2 * tf / 2 ^ 53 :=
              div_le_div_of_nonneg_right this (by positivity)
          _ = 2 / 2 ^ 53 * tf := by ring
      exact le_trans h3 h4
    rw [zero_add]
    calc |(lm.map (fun e => F64.nearest ((e.2 : ℚ) / tf))).sum - 1|
        = |((lm.map (fun e => F64.nearest ((e.2 : ℚ) / tf))).sum - (value_sum lm : ℚ) / tf)
            + ((value_sum lm : ℚ) / tf - 1)| := by
          congr 1
          ring
      _ ≤ |(lm.map (fun e => F64.nearest ((e.2 : ℚ) / tf))).sum - (value_sum lm : ℚ) / tf|
            + |(value_sum lm : ℚ) / tf - 1| := abs_add _ _
      _ ≤ (lm.length : ℚ) / 2 ^ 53 + 2 / 2 ^ 53 := add_le_add h1 h2
      _ = ((lm.length : ℚ) + 2) / 2 ^ 53 := by ring

/-- C7, at the language model `{1:1, 3:2}` of class "B", smoothed into an empty map of
models. -/
theorem C7_probabilities_sum_near_one_witness :
    ∃ (sm : UMap TermID Dbl) (s : ℚ), (smooth_class64 [] "B" scenarioB).find? "B" = some sm
      ∧ sm.keys = scenarioB.keys ∧ prob_sum sm = Dbl.fin s
      ∧ |s - 1| ≤ ((scenarioB.length : ℚ) + 2) / 2 ^ 53 :=
  C7_probabilities_sum_near_one [] "B" scenarioB (by decide) (by decide) (by decide) (by decide)

end Features
